import Mathlib

/-!
Stanza split functions (`pkg/stanza/split/split.go`)

A shallow embedding of the four `bufio.SplitFunc` strategies of the package
(`NoSplitFunc`, `NewlineSplitFunc`, `LineStartSplitFunc`, `LineEndSplitFunc`) and of
the selector `Config.Func`, followed by theorems about them.

Modelling conventions.

* A Go `[]byte` is a `Slice`: either the nil slice or a non-nil slice carrying a list
  of bytes. The distinction matters because the code returns `nil` tokens, non-nil
  empty tokens (`[]byte{}`) and tests `token != nil`.
* Go `int` values (offsets, lengths, `advance`, `maxLogSize`) are `Int`. Every offset the
  code computes is bounded by a buffer length plus one, so no wrap-around is involved.
* A slice expression `s[lo:hi]` is fallible: `Slice.slice` returns `none` where Go would
  panic with "slice bounds out of range". The split functions therefore return
  `Option SplitResult`, `none` standing for such a run-time panic.
* `regexp.Regexp.FindIndex`, `regexp.Compile` and the `encoding.Encoding` transformer are
  library code outside the package: they are parameters of the embedding.
-/

namespace Split

/-- One byte of a buffer. -/
abbrev Byte := Fin 256

/-- A Go `[]byte` value: the nil slice, or a non-nil slice with the given contents. -/
inductive Slice where
  | nil : Slice
  | of : List Byte → Slice
deriving DecidableEq, Repr

/-- The contents of a slice; the nil slice has none. -/
def Slice.bytes : Slice → List Byte
  | .nil => []
  | .of l => l

/-- Go `len(s)`. -/
def Slice.len (s : Slice) : Int := (s.bytes.length : Int)

/-- Go `s[lo:hi]`. The bounds `0 <= lo <= hi <= len(s)` are required; outside them the
result is `none` (Go panics; Go compares `hi` with `cap(s) >= len(s)`, so an expression
in bounds here is in bounds in Go). Slicing the nil slice gives the nil slice, slicing a
non-nil slice gives a non-nil slice. -/
def Slice.slice (s : Slice) (lo hi : Int) : Option Slice :=
  if 0 ≤ lo ∧ lo ≤ hi ∧ hi ≤ s.len then
    match s with
    | .nil => some .nil
    | .of l => some (.of ((l.drop lo.toNat).take (hi.toNat - lo.toNat)))
  else none

/-- What the caller's buffer becomes after discarding `n` leading bytes (`buf[n:]`). -/
def Slice.dropFront (s : Slice) (n : Nat) : Slice :=
  match s with
  | .nil => .nil
  | .of l => .of (l.drop n)

/-- The three results of a `bufio.SplitFunc`; `err = none` is the nil error. -/
structure SplitResult where
  advance : Int
  token : Slice
  err : Option String
deriving DecidableEq, Repr

/-- A `bufio.SplitFunc`: `data`, `atEOF` to `(advance, token, err)`, or `none` when a
slice expression of the body is out of range. -/
abbrev SplitFunc := Slice → Bool → Option SplitResult

/-- The statement `return 0, nil, nil`. -/
def needMoreData : SplitResult := ⟨0, .nil, none⟩

/-- A compiled `*regexp.Regexp` seen through `FindIndex`: `none` for a nil location,
`some (start, end)` for the location `[start, end]` of the leftmost match. -/
abbrev Regexp := List Byte → Option (Int × Int)

/-- The guarantee `FindIndex` gives: a location is a span of the searched bytes. -/
def ValidMatcher (re : Regexp) : Prop :=
  ∀ (d : List Byte) (s e : Int), re d = some (s, e) → 0 ≤ s ∧ s ≤ e ∧ e ≤ (d.length : Int)

/-- The second half of the body of `LineStartSplitFunc` (from `if firstMatchEnd == len(data)`
on), reached when the first match starts at offset 0. -/
def lineStartFromFirstMatch (re : Regexp) (flushAtEOF : Bool) (data : Slice) (atEOF : Bool)
    (firstMatchStart firstMatchEnd : Int) : Option SplitResult :=
  if firstMatchEnd = data.len then
    some needMoreData
  else if atEOF ∧ flushAtEOF then
    some ⟨data.len, data, none⟩
  else
    let secondLocOfset := firstMatchEnd + 1
    match data.slice secondLocOfset data.len with
    | none => none
    | some rest =>
      match re rest.bytes with
      | none => some needMoreData
      | some (secondLoc0, _) =>
        let secondMatchStart := secondLoc0 + secondLocOfset
        match data.slice firstMatchStart secondMatchStart with
        | none => none
        | some token => some ⟨secondMatchStart, token, none⟩

/-- `LineStartSplitFunc(re, flushAtEOF)`: tokens that start with a match of `re`. -/
def LineStartSplitFunc (re : Regexp) (flushAtEOF : Bool) : SplitFunc := fun data atEOF =>
  match re data.bytes with
  | none =>
    if data.len ≠ 0 ∧ atEOF ∧ flushAtEOF then some ⟨data.len, data, none⟩
    else some needMoreData
  | some (firstMatchStart, firstMatchEnd) =>
    if firstMatchStart ≠ 0 then
      match data.slice 0 firstMatchStart with
      | none => none
      | some token =>
        if token ≠ .nil then some ⟨firstMatchStart, token, none⟩
        else lineStartFromFirstMatch re flushAtEOF data atEOF firstMatchStart firstMatchEnd
    else lineStartFromFirstMatch re flushAtEOF data atEOF firstMatchStart firstMatchEnd

/-- `LineEndSplitFunc(re, flushAtEOF)`: tokens that end with a match of `re`. -/
def LineEndSplitFunc (re : Regexp) (flushAtEOF : Bool) : SplitFunc := fun data atEOF =>
  match re data.bytes with
  | none =>
    if data.len ≠ 0 ∧ atEOF ∧ flushAtEOF then some ⟨data.len, data, none⟩
    else some needMoreData
  | some (_, locEnd) =>
    if locEnd = data.len - 1 ∧ atEOF = false then some needMoreData
    else
      match data.slice 0 locEnd with
      | none => none
      | some token => some ⟨locEnd, token, none⟩

/-- Offset of the first occurrence of `sep` in `s`, if any (the empty `sep` occurs at 0). -/
def firstIndex (sep : List Byte) : List Byte → Option Nat
  | [] => if sep = [] then some 0 else none
  | b :: t =>
    if sep.isPrefixOf (b :: t) then some 0
    else (firstIndex sep t).map (fun i => i + 1)

/-- Go `bytes.Index(s, sep)`: the index of the first instance of `sep` in `s`, or -1. -/
def bytesIndex (s sep : List Byte) : Int :=
  match firstIndex sep s with
  | some i => (i : Int)
  | none => -1

/-- Go `bytes.TrimSuffix(s, suffix)`: `s[:len(s)-len(suffix)]` when `s` ends with `suffix`,
otherwise `s` itself. -/
def bytesTrimSuffix (s : Slice) (suffix : List Byte) : Slice :=
  if suffix.isSuffixOf s.bytes then
    match s with
    | .nil => .nil
    | .of l => .of (l.take (l.length - suffix.length))
  else s

/-- The closure returned by `NewlineSplitFunc`, for the encoded newline and carriage
return computed at set-up. -/
def newlineSplit (newline carriageReturn : List Byte) (flushAtEOF : Bool) : SplitFunc :=
  fun data atEOF =>
    if atEOF ∧ data.len = 0 then
      some needMoreData
    else
      let i := bytesIndex data.bytes newline
      if i = 0 then
        some ⟨(newline.length : Int), .of [], none⟩
      else if i ≥ 0 then
        match data.slice 0 i with
        | none => none
        | some line => some ⟨i + (newline.length : Int), bytesTrimSuffix line carriageReturn, none⟩
      else if atEOF ∧ flushAtEOF then
        some ⟨data.len, data, none⟩
      else
        some needMoreData

/-- `NoSplitFunc(maxLogSize)`: the whole buffer, cut at `maxLogSize` bytes. -/
def NoSplitFunc (maxLogSize : Int) : SplitFunc := fun data atEOF =>
  if data.len ≥ maxLogSize then
    match data.slice 0 maxLogSize with
    | none => none
    | some token => some ⟨maxLogSize, token, none⟩
  else if atEOF = false then
    some needMoreData
  else if data.len = 0 then
    some needMoreData
  else
    some ⟨data.len, data, none⟩

/-- An `encoding.Encoding` as the package uses it: whether it is the value `encoding.Nop`,
and what `enc.NewEncoder().Transform(out, src, true)` leaves in a 10-byte `out`
(the bytes `out[:nDst]`) together with the error it reports. -/
structure Encoding where
  isNop : Bool
  transform : List Byte → List Byte × Option String

/-- `encodedNewline(enc)`: the encoding of the byte `'\n'`. -/
def encodedNewline (enc : Encoding) : List Byte × Option String :=
  enc.transform [10]

/-- `encodedCarriageReturn(enc)`: the encoding of the byte `'\r'`. -/
def encodedCarriageReturn (enc : Encoding) : List Byte × Option String :=
  enc.transform [13]

/-- `NewlineSplitFunc(enc, flushAtEOF)`: the split function (`none` is a nil function)
and the error. -/
def NewlineSplitFunc (enc : Encoding) (flushAtEOF : Bool) : Option SplitFunc × Option String :=
  match encodedNewline enc with
  | (_, some err) => (none, some err)
  | (newline, none) =>
    match encodedCarriageReturn enc with
    | (_, some err) => (none, some err)
    | (carriageReturn, none) => (some (newlineSplit newline carriageReturn flushAtEOF), none)

/-- The configuration for a split func. -/
structure Config where
  LineStartPattern : String
  LineEndPattern : String

/-- `Config.Func(enc, flushAtEOF, maxLogSize)`. The parameter `compile` is
`regexp.Compile`: the compiled expression, or the error text. The result is the pair
`(splitFunc, err)`, `none` standing for nil in both places. -/
def Config.Func (compile : String → Except String Regexp) (c : Config) (enc : Encoding)
    (flushAtEOF : Bool) (maxLogSize : Int) : Option SplitFunc × Option String :=
  if c.LineEndPattern ≠ "" ∧ c.LineStartPattern ≠ "" then
    (none, some "only one of line_start_pattern or line_end_pattern can be set")
  else if enc.isNop = true ∧ (c.LineEndPattern ≠ "" ∨ c.LineStartPattern ≠ "") then
    (none, some "line_start_pattern or line_end_pattern should not be set when using nop encoding")
  else if enc.isNop = true then
    (some (NoSplitFunc maxLogSize), none)
  else if c.LineEndPattern = "" ∧ c.LineStartPattern = "" then
    match NewlineSplitFunc enc flushAtEOF with
    | (_, some err) => (none, some err)
    | (splitFunc, none) => (splitFunc, none)
  else if c.LineEndPattern ≠ "" then
    match compile ("(?m)" ++ c.LineEndPattern) with
    | .error err => (none, some ("compile line end regex: " ++ err))
    | .ok re => (some (LineEndSplitFunc re flushAtEOF), none)
  else if c.LineStartPattern ≠ "" then
    match compile ("(?m)" ++ c.LineStartPattern) with
    | .error err => (none, some ("compile line start regex: " ++ err))
    | .ok re => (some (LineStartSplitFunc re flushAtEOF), none)
  else
    (none, none)

/-- Modelled from the spec: the external read loop ("successive calls, dropping the
returned advance from the front of the buffer each time, until the strategy returns
`(0, nil)`"), which is not part of the package. Each call that is not the need-more-data
answer is recorded as a step and `advance` bytes are dropped; the loop ends at the first
`(0, nil)` and returns the steps with the buffer that is left. `none` means that a call
panicked, that an advance fell outside the buffer, or that `fuel` calls were not enough. -/
def scanLoop (f : SplitFunc) (atEOF : Bool) : Nat → Slice → Option (List SplitResult × Slice)
  | 0, _ => none
  | fuel + 1, data =>
    match f data atEOF with
    | none => none
    | some r =>
      if r.advance = 0 ∧ r.token = .nil then some ([], data)
      else if r.advance < 0 ∨ data.len < r.advance then none
      else
        match scanLoop f atEOF fuel (data.dropFront r.advance.toNat) with
        | none => none
        | some (steps, rest) => some (r :: steps, rest)

/-- The tokens of a list of steps, in order. -/
def stepTokens (steps : List SplitResult) : List Slice := steps.map (fun r => r.token)

/-- The sum of the advances of a list of steps. -/
def totalAdvance (steps : List SplitResult) : Int := (steps.map (fun r => r.advance)).sum

/-- The successive chunks of at most `n` bytes of a list (`n > 0`): chunk `k` is
`l[k*n : min((k+1)*n, len l)]`. -/
def chunks (n : Nat) (l : List Byte) : List (List Byte) :=
  (List.range ((l.length + n - 1) / n)).map (fun k => (l.drop (k * n)).take n)

/-- The buffer `l_1 ++ "\n" ++ ... ++ l_k ++ "\n"` of newline-terminated lines. -/
def joinLines (lines : List (List Byte)) : List Byte :=
  (lines.map (fun l => l ++ [10])).flatten

/-- A concrete matcher used in examples: the leftmost occurrence of the byte `b`, as the
one-byte span `[i, i+1]`. -/
def findByte (b : Byte) : Regexp
  | [] => none
  | c :: t =>
    if c = b then some (0, 1)
    else
      match findByte b t with
      | none => none
      | some (s, e) => some (s + 1, e + 1)

/-- The bytes a run accounts for: each step's token followed by the separator discarded
with it. -/
def reassemble (steps : List SplitResult) (seps : List (List Byte)) : List Byte :=
  (List.zipWith (fun r sep => r.token.bytes ++ sep) steps seps).flatten

/-- An example of the value `encoding.Nop`: the bytes pass unchanged. -/
def nopEncoding : Encoding := ⟨true, fun src => (src, none)⟩

/-- An example of a text encoding that leaves ASCII bytes unchanged (UTF-8). -/
def utf8Encoding : Encoding := ⟨false, fun src => (src, none)⟩

/-- An example `regexp.Compile` for the witnesses: every expression compiles to the
matcher for the byte `'L'`. -/
def exampleCompile : String → Except String Regexp := fun _ => .ok (findByte 76)

/-- The step that emits the chunk `c`: `advance = len(c)` and the non-nil token `c`. -/
def chunkStep (c : List Byte) : SplitResult := ⟨(c.length : Int), .of c, none⟩

/-- The step that emits the line `l` and discards the one-byte newline after it:
`advance = len(l) + 1` and the non-nil token `l`. -/
def lineStep (l : List Byte) : SplitResult := ⟨(l.length : Int) + 1, .of l, none⟩

/-- The matcher that `FindIndex` gives for the expression `(?m)^LOG:`, the flag saying
whether the current offset is at the beginning of the text or just after a newline byte:
the leftmost span of the bytes `LOG:` that starts at the beginning of the searched text
or of one of its lines. The text is whatever slice `FindIndex` receives: the bytes before
that slice are not seen. -/
def matchLogStartFrom : Bool → List Byte → Option (Int × Int)
  | _, [] => none
  | atLineStart, b :: t =>
    if atLineStart = true ∧ [76, 79, 71, 58].isPrefixOf (b :: t) = true then some (0, 4)
    else
      match matchLogStartFrom (b == 10) t with
      | none => none
      | some (s, e) => some (s + 1, e + 1)

/-- The compiled expression `(?m)^LOG:` (line-start pattern `^LOG:`). -/
def logStartRegexp : Regexp := matchLogStartFrom true

/-- The compiled expression `(?m);$` (line-end pattern `;$`) seen through `FindIndex`:
the leftmost byte `';'` that is the last byte of the searched text or is followed by a
newline byte, as a one-byte span. -/
def semicolonEndRegexp : Regexp
  | [] => none
  | b :: t =>
    if b = 59 ∧ (t = [] ∨ t.head? = some 10) then some (0, 1)
    else
      match semicolonEndRegexp t with
      | none => none
      | some (s, e) => some (s + 1, e + 1)

/-- The buffer `r_1 ++ ";\n" ++ ... ++ r_k ++ ";\n"` of records ended by `";\n"`. -/
def joinRecords (records : List (List Byte)) : List Byte :=
  (records.map (fun r => r ++ [59, 10])).flatten

/-- The tokens `LineEndSplitFunc` emits at end-of-stream on `pre ++ joinRecords records`
for the pattern `;$`: each token runs up to and including the next `';'`, and so starts
with the newline left behind by the record before it; at the end the left-over bytes are
flushed when `flushAtEOF` is set. -/
def recordTokens (flushAtEOF : Bool) : List Byte → List (List Byte) → List (List Byte)
  | pre, [] => if pre ≠ [] ∧ flushAtEOF = true then [pre] else []
  | pre, r :: rs => (pre ++ r ++ [59]) :: recordTokens flushAtEOF [10] rs

/-- The bytes left in the buffer when that run ends. -/
def recordRest (flushAtEOF : Bool) : List Byte → List (List Byte) → List Byte
  | pre, [] => if flushAtEOF = true then [] else pre
  | _, _ :: rs => recordRest flushAtEOF [10] rs

/-- Go `bytes.IndexByte(s, c)`: the index of the first instance of `c` in `s`, or -1. -/
def bytesIndexByte : List Byte → Byte → Int
  | [], _ => -1
  | b :: t, c =>
    if b = c then 0
    else
      let r := bytesIndexByte t c
      if r < 0 then -1 else r + 1

/-- The helper `dropCR` of Go's `bufio`: `data[0 : len(data)-1]` when the last byte is
`'\r'`, otherwise `data`. -/
def dropCR (data : Slice) : Option Slice :=
  if 0 < data.len ∧ data.bytes.getLast? = some 13 then data.slice 0 (data.len - 1)
  else some data

/-- Go's `bufio.ScanLines`, from the standard library: a line of text without its
end-of-line marker `\r?\n`; at end-of-stream the last, unterminated line is returned. -/
def ScanLines : SplitFunc := fun data atEOF =>
  if atEOF = true ∧ data.len = 0 then
    some needMoreData
  else
    let i := bytesIndexByte data.bytes 10
    if i ≥ 0 then
      match data.slice 0 i with
      | none => none
      | some line =>
        match dropCR line with
        | none => none
        | some token => some ⟨i + 1, token, none⟩
    else if atEOF = true then
      match dropCR data with
      | none => none
      | some token => some ⟨data.len, token, none⟩
    else
      some needMoreData

/-- A matcher for an expression that matches the empty string (such as `x*`): the empty
span at offset 0 of every text. -/
def emptyMatchRegexp : Regexp := fun _ => some (0, 0)

/-! ## Slices -/

theorem Slice.len_nonneg (s : Slice) : 0 ≤ s.len := by
  unfold Slice.len
  exact Int.natCast_nonneg _

theorem Slice.len_of (l : List Byte) : (Slice.of l).len = (l.length : Int) := rfl

theorem Slice.len_nil : Slice.nil.len = 0 := rfl

theorem Slice.bytes_of (l : List Byte) : (Slice.of l).bytes = l := rfl

/-- A slice expression that evaluates is in bounds, and its value is the expected range
of bytes; it is nil exactly when the sliced operand is. -/
theorem Slice.slice_eq_some {s t : Slice} {lo hi : Int} (h : s.slice lo hi = some t) :
    0 ≤ lo ∧ lo ≤ hi ∧ hi ≤ s.len ∧
      t.bytes = (s.bytes.drop lo.toNat).take (hi.toNat - lo.toNat) ∧ (t = .nil ↔ s = .nil) := by
  unfold Slice.slice at h
  split_ifs at h with hb
  obtain ⟨h0, h1, h2⟩ := hb
  refine ⟨h0, h1, h2, ?_⟩
  cases s with
  | nil =>
    simp only [Option.some.injEq] at h
    subst h
    simp [Slice.bytes]
  | of l =>
    simp only [Option.some.injEq] at h
    subst h
    simp [Slice.bytes]

/-- A slice expression in bounds evaluates. -/
theorem Slice.slice_of_bounds (s : Slice) (lo hi : Int) (h0 : 0 ≤ lo) (h1 : lo ≤ hi)
    (h2 : hi ≤ s.len) : ∃ t, s.slice lo hi = some t := by
  unfold Slice.slice
  rw [if_pos ⟨h0, h1, h2⟩]
  cases s <;> simp

/-- The prefix `s[0:hi]` holds the first `hi` bytes. -/
theorem Slice.slice_zero_bytes {s t : Slice} {hi : Int} (h : s.slice 0 hi = some t) :
    t.bytes = s.bytes.take hi.toNat ∧ t.len = hi := by
  obtain ⟨_, h1, h2, hb, _⟩ := Slice.slice_eq_some h
  have hb2 : t.bytes = s.bytes.take hi.toNat := by simpa using hb
  refine ⟨hb2, ?_⟩
  unfold Slice.len at h2 ⊢
  rw [hb2, List.length_take]
  omega

/-! ## `bytes.Index` -/

/-- When `firstIndex` answers `i`, `sep` occurs at `i`, inside `s`, and at no earlier offset. -/
theorem firstIndex_some {sep : List Byte} : ∀ {s : List Byte} {i : Nat},
    firstIndex sep s = some i →
      i + sep.length ≤ s.length ∧ sep <+: s.drop i ∧ ∀ j, j < i → ¬ sep <+: s.drop j
  | [], i, h => by
    unfold firstIndex at h
    split_ifs at h with hs
    simp only [Option.some.injEq] at h
    subst h
    subst hs
    simp
  | b :: t, i, h => by
    unfold firstIndex at h
    split_ifs at h with hp
    · simp only [Option.some.injEq] at h
      subst h
      have hp2 : sep <+: b :: t := List.isPrefixOf_iff_prefix.mp hp
      refine ⟨?_, by simpa using hp2, by simp⟩
      simpa using hp2.length_le
    · rw [Option.map_eq_some'] at h
      obtain ⟨k, hk, rfl⟩ := h
      obtain ⟨h1, h2, h3⟩ := firstIndex_some hk
      refine ⟨?_, by simpa using h2, ?_⟩
      · simp only [List.length_cons]
        omega
      · intro j hj
        cases j with
        | zero =>
          intro hc
          exact hp (List.isPrefixOf_iff_prefix.mpr (by simpa using hc))
        | succ j =>
          simpa using h3 j (by omega)

/-- When `firstIndex` answers nothing, `sep` occurs at no offset of `s`. -/
theorem firstIndex_none {sep : List Byte} : ∀ {s : List Byte},
    firstIndex sep s = none → ∀ j, ¬ sep <+: s.drop j
  | [], h => by
    unfold firstIndex at h
    split_ifs at h with hs
    intro j hc
    apply hs
    simpa using hc
  | b :: t, h => by
    unfold firstIndex at h
    split_ifs at h with hp
    rw [Option.map_eq_none'] at h
    intro j
    cases j with
    | zero =>
      intro hc
      exact hp (List.isPrefixOf_iff_prefix.mpr (by simpa using hc))
    | succ j =>
      simpa using firstIndex_none h j

/-- The answer of `firstIndex` is the unique first occurrence. -/
theorem firstIndex_of_first {sep s : List Byte} {i : Nat} (hi : sep <+: s.drop i)
    (hfirst : ∀ j, j < i → ¬ sep <+: s.drop j) : firstIndex sep s = some i := by
  cases hf : firstIndex sep s with
  | none => exact absurd hi (firstIndex_none hf i)
  | some k =>
    obtain ⟨_, hk, hkfirst⟩ := firstIndex_some hf
    rcases Nat.lt_trichotomy k i with hlt | heq | hgt
    · exact absurd hk (hfirst k hlt)
    · rw [heq]
    · exact absurd hi (hkfirst i hgt)

/-- The value of `bytes.Index` is -1 or an offset at which `sep` fits in `s`. -/
theorem bytesIndex_range (s sep : List Byte) :
    bytesIndex s sep = -1 ∨
      (0 ≤ bytesIndex s sep ∧ bytesIndex s sep + (sep.length : Int) ≤ (s.length : Int)) := by
  unfold bytesIndex
  cases hf : firstIndex sep s with
  | none => left; rfl
  | some i =>
    right
    obtain ⟨h1, _, _⟩ := firstIndex_some hf
    simp only
    omega

/-! ## The advance stays inside the buffer -/

theorem newlineSplit_advance (nl cr : List Byte) (flushAtEOF : Bool) (data : Slice)
    (atEOF : Bool) :
    ∃ r, newlineSplit nl cr flushAtEOF data atEOF = some r ∧ 0 ≤ r.advance ∧
      r.advance ≤ data.len := by
  have hlen := data.len_nonneg
  have hlen2 : data.len = (data.bytes.length : Int) := rfl
  unfold newlineSplit
  simp only
  split_ifs with h1 h2 h3 h4
  · exact ⟨_, rfl, by simp [needMoreData], by simpa [needMoreData] using hlen⟩
  · rcases bytesIndex_range data.bytes nl with h | ⟨_, h⟩
    · omega
    · exact ⟨_, rfl, by simp, by simp only; omega⟩
  · rcases bytesIndex_range data.bytes nl with h | ⟨h0, h⟩
    · omega
    · obtain ⟨t, ht⟩ := data.slice_of_bounds 0 _ (le_refl 0) h0 (by omega)
      rw [ht]
      exact ⟨_, rfl, by simp only; omega, by simp only; omega⟩
  · exact ⟨_, rfl, hlen, le_refl _⟩
  · exact ⟨_, rfl, by simp [needMoreData], by simpa [needMoreData] using hlen⟩

theorem lineStartFromFirstMatch_advance (re : Regexp) (hre : ValidMatcher re)
    (flushAtEOF : Bool) (data : Slice) (atEOF : Bool) (s e : Int)
    (hs : 0 ≤ s) (hse : s ≤ e) (he : e ≤ data.len) :
    ∃ r, lineStartFromFirstMatch re flushAtEOF data atEOF s e = some r ∧ 0 ≤ r.advance ∧
      r.advance ≤ data.len := by
  have hlen := data.len_nonneg
  unfold lineStartFromFirstMatch
  simp only
  split_ifs with h1 h2
  · exact ⟨_, rfl, by simp [needMoreData], by simpa [needMoreData] using hlen⟩
  · exact ⟨_, rfl, hlen, le_refl _⟩
  · obtain ⟨rest, hrest⟩ := data.slice_of_bounds (e + 1) (data.len)
      (by omega) (by omega) (le_refl _)
    rw [hrest]
    simp only
    obtain ⟨_, _, _, hb, _⟩ := Slice.slice_eq_some hrest
    cases hm : re rest.bytes with
    | none => exact ⟨_, rfl, by simp [needMoreData], by simpa [needMoreData] using hlen⟩
    | some loc =>
      obtain ⟨s2, e2⟩ := loc
      obtain ⟨k0, k1, k2⟩ := hre _ _ _ hm
      have hrl : (rest.bytes.length : Int) = data.len - (e + 1) := by
        rw [hb]
        simp only [List.length_take, List.length_drop, Slice.len]
        unfold Slice.len at he hlen h1
        omega
      simp only
      obtain ⟨tok, htok⟩ := data.slice_of_bounds s (s2 + (e + 1))
        hs (by omega) (by omega)
      rw [htok]
      exact ⟨_, rfl, by simp only; omega, by simp only; omega⟩

theorem LineStartSplitFunc_advance (re : Regexp) (hre : ValidMatcher re)
    (flushAtEOF : Bool) (data : Slice) (atEOF : Bool) :
    ∃ r, LineStartSplitFunc re flushAtEOF data atEOF = some r ∧ 0 ≤ r.advance ∧
      r.advance ≤ data.len := by
  have hlen := data.len_nonneg
  unfold LineStartSplitFunc
  cases hm : re data.bytes with
  | none =>
    simp only
    split_ifs
    · exact ⟨_, rfl, hlen, le_refl _⟩
    · exact ⟨_, rfl, by simp [needMoreData], by simpa [needMoreData] using hlen⟩
  | some loc =>
    obtain ⟨s, e⟩ := loc
    obtain ⟨k0, k1, k2⟩ := hre _ _ _ hm
    have k2b : e ≤ data.len := k2
    simp only
    split_ifs with h1
    · obtain ⟨tok, htok⟩ := data.slice_of_bounds 0 s (le_refl 0) k0 (by omega)
      rw [htok]
      simp only
      split_ifs with h2
      · exact ⟨_, rfl, by simp only; omega, by simp only; omega⟩
      · exact lineStartFromFirstMatch_advance re hre flushAtEOF data atEOF s e k0 k1 k2b
    · exact lineStartFromFirstMatch_advance re hre flushAtEOF data atEOF s e k0 k1 k2b

theorem LineEndSplitFunc_advance (re : Regexp) (hre : ValidMatcher re)
    (flushAtEOF : Bool) (data : Slice) (atEOF : Bool) :
    ∃ r, LineEndSplitFunc re flushAtEOF data atEOF = some r ∧ 0 ≤ r.advance ∧
      r.advance ≤ data.len := by
  have hlen := data.len_nonneg
  unfold LineEndSplitFunc
  cases hm : re data.bytes with
  | none =>
    simp only
    split_ifs
    · exact ⟨_, rfl, hlen, le_refl _⟩
    · exact ⟨_, rfl, by simp [needMoreData], by simpa [needMoreData] using hlen⟩
  | some loc =>
    obtain ⟨s, e⟩ := loc
    obtain ⟨k0, k1, k2⟩ := hre _ _ _ hm
    have k2b : e ≤ data.len := k2
    simp only
    split_ifs with h1
    · exact ⟨_, rfl, by simp [needMoreData], by simpa [needMoreData] using hlen⟩
    · obtain ⟨tok, htok⟩ := data.slice_of_bounds 0 e (le_refl 0) (by omega) k2b
      rw [htok]
      exact ⟨_, rfl, by simp only; omega, by simp only; omega⟩

theorem NoSplitFunc_advance (maxLogSize : Int) (hmax : 0 ≤ maxLogSize) (data : Slice)
    (atEOF : Bool) :
    ∃ r, NoSplitFunc maxLogSize data atEOF = some r ∧ 0 ≤ r.advance ∧
      r.advance ≤ data.len := by
  have hlen := data.len_nonneg
  unfold NoSplitFunc
  split_ifs with h1 h2 h3
  · obtain ⟨tok, htok⟩ := data.slice_of_bounds 0 maxLogSize (le_refl 0) hmax h1
    rw [htok]
    exact ⟨_, rfl, hmax, h1⟩
  · exact ⟨_, rfl, by simp [needMoreData], by simpa [needMoreData] using hlen⟩
  · exact ⟨_, rfl, by simp [needMoreData], by simpa [needMoreData] using hlen⟩
  · exact ⟨_, rfl, hlen, le_refl _⟩

/-- The example matcher `findByte` reports spans of the searched bytes. -/
theorem findByte_valid (b : Byte) : ValidMatcher (findByte b) := by
  intro d
  induction d with
  | nil => intro s e h; simp [findByte] at h
  | cons c t ih =>
    intro s e h
    unfold findByte at h
    split_ifs at h with hc
    · simp only [Option.some.injEq, Prod.mk.injEq] at h
      obtain ⟨rfl, rfl⟩ := h
      simp
    · cases hm : findByte b t with
      | none => simp [hm] at h
      | some loc =>
        obtain ⟨s2, e2⟩ := loc
        simp only [hm, Option.some.injEq, Prod.mk.injEq] at h
        obtain ⟨rfl, rfl⟩ := h
        obtain ⟨k0, k1, k2⟩ := ih s2 e2 hm
        simp only [List.length_cons, Nat.cast_add, Nat.cast_one]
        omega

/-- C1. For every buffer and end-of-stream flag, each of the four strategies returns
(no slice expression of its body is out of range, so there is no panic) and its advance
satisfies `0 <= advance <= len(buffer)`: `NewlineSplitFunc` for any encoded newline and
carriage return, `LineStartSplitFunc` and `LineEndSplitFunc` for any matcher reporting
spans of the searched bytes, `NoSplitFunc` for `maxLogSize >= 0`. The two slice
expressions named in the claim are in bounds whenever they are evaluated:
`data[firstMatchEnd+1:]` once the first match does not end at `len(data)`, and
`data[:maxLogSize]` once `len(data) >= maxLogSize`. -/
theorem advance_within_buffer (newline carriageReturn : List Byte) (re : Regexp)
    (hre : ValidMatcher re) (maxLogSize : Int) (hmax : 0 ≤ maxLogSize) (flushAtEOF : Bool)
    (data : Slice) (atEOF : Bool) :
    (∃ r, newlineSplit newline carriageReturn flushAtEOF data atEOF = some r ∧
        0 ≤ r.advance ∧ r.advance ≤ data.len) ∧
    (∃ r, LineStartSplitFunc re flushAtEOF data atEOF = some r ∧
        0 ≤ r.advance ∧ r.advance ≤ data.len) ∧
    (∃ r, LineEndSplitFunc re flushAtEOF data atEOF = some r ∧
        0 ≤ r.advance ∧ r.advance ≤ data.len) ∧
    (∃ r, NoSplitFunc maxLogSize data atEOF = some r ∧
        0 ≤ r.advance ∧ r.advance ≤ data.len) ∧
    (∀ s e, re data.bytes = some (s, e) → e ≠ data.len →
        (data.slice (e + 1) data.len).isSome = true) ∧
    (maxLogSize ≤ data.len → (data.slice 0 maxLogSize).isSome = true) := by
  refine ⟨newlineSplit_advance _ _ _ _ _, LineStartSplitFunc_advance re hre _ _ _,
    LineEndSplitFunc_advance re hre _ _ _, NoSplitFunc_advance _ hmax _ _, ?_, ?_⟩
  · intro s e hm hne
    obtain ⟨_, _, k2⟩ := hre _ _ _ hm
    have k2b : e ≤ data.len := k2
    obtain ⟨t, ht⟩ := data.slice_of_bounds (e + 1) data.len (by omega) (by omega) (le_refl _)
    rw [ht]
    rfl
  · intro h
    obtain ⟨t, ht⟩ := data.slice_of_bounds 0 maxLogSize (le_refl 0) hmax h
    rw [ht]
    rfl

/-- C1 at a concrete input: the buffer `"LOG\nL"`, the matcher for `'L'`, `maxLogSize = 4`. -/
theorem advance_within_buffer_witness :
    ValidMatcher (findByte 76) ∧ (0 : Int) ≤ 4 ∧
    ((∃ r, newlineSplit [10] [13] true (.of [76, 79, 71, 10, 76]) false = some r ∧
        0 ≤ r.advance ∧ r.advance ≤ (Slice.of [76, 79, 71, 10, 76]).len) ∧
    (∃ r, LineStartSplitFunc (findByte 76) true (.of [76, 79, 71, 10, 76]) false = some r ∧
        0 ≤ r.advance ∧ r.advance ≤ (Slice.of [76, 79, 71, 10, 76]).len) ∧
    (∃ r, LineEndSplitFunc (findByte 76) true (.of [76, 79, 71, 10, 76]) false = some r ∧
        0 ≤ r.advance ∧ r.advance ≤ (Slice.of [76, 79, 71, 10, 76]).len) ∧
    (∃ r, NoSplitFunc 4 (.of [76, 79, 71, 10, 76]) false = some r ∧
        0 ≤ r.advance ∧ r.advance ≤ (Slice.of [76, 79, 71, 10, 76]).len) ∧
    (∀ s e, findByte 76 (Slice.of [76, 79, 71, 10, 76]).bytes = some (s, e) →
        e ≠ (Slice.of [76, 79, 71, 10, 76]).len →
        ((Slice.of [76, 79, 71, 10, 76]).slice (e + 1)
          (Slice.of [76, 79, 71, 10, 76]).len).isSome = true) ∧
    ((4 : Int) ≤ (Slice.of [76, 79, 71, 10, 76]).len →
        ((Slice.of [76, 79, 71, 10, 76]).slice 0 4).isSome = true)) :=
  ⟨findByte_valid 76, by decide,
    advance_within_buffer [10] [13] (findByte 76) (findByte_valid 76) 4 (by decide) true
      (.of [76, 79, 71, 10, 76]) false⟩

/-! ## The consumed prefix is the token followed by the separator -/

/-- The need-more-data answer consumes nothing and emits nothing. -/
theorem needMoreData_consumed (data : Slice) :
    needMoreData.token.bytes = data.bytes.take needMoreData.advance.toNat ∧
      needMoreData.token.len = needMoreData.advance := by
  simp [needMoreData, Slice.bytes, Slice.len]

/-- Returning the whole buffer consumes exactly the buffer. -/
theorem whole_buffer_consumed (data : Slice) :
    data.bytes = data.bytes.take data.len.toNat ∧ data.len = data.len := by
  simp [Slice.len]

theorem NoSplitFunc_token_consumed (maxLogSize : Int) (data : Slice) (atEOF : Bool)
    (r : SplitResult) (h : NoSplitFunc maxLogSize data atEOF = some r) :
    r.token.bytes = data.bytes.take r.advance.toNat ∧ r.token.len = r.advance := by
  unfold NoSplitFunc at h
  split_ifs at h with h1 h2 h3
  · cases ht : data.slice 0 maxLogSize with
    | none => simp [ht] at h
    | some t =>
      simp only [ht, Option.some.injEq] at h
      subst h
      exact Slice.slice_zero_bytes ht
  · simp only [Option.some.injEq] at h
    subst h
    exact needMoreData_consumed data
  · simp only [Option.some.injEq] at h
    subst h
    exact needMoreData_consumed data
  · simp only [Option.some.injEq] at h
    subst h
    exact whole_buffer_consumed data

theorem lineStartFromFirstMatch_token_consumed (re : Regexp) (flushAtEOF : Bool) (data : Slice)
    (atEOF : Bool) (e : Int) (r : SplitResult)
    (h : lineStartFromFirstMatch re flushAtEOF data atEOF 0 e = some r) :
    r.token.bytes = data.bytes.take r.advance.toNat ∧ r.token.len = r.advance := by
  unfold lineStartFromFirstMatch at h
  simp only at h
  split_ifs at h with h1 h2
  · simp only [Option.some.injEq] at h
    subst h
    exact needMoreData_consumed data
  · simp only [Option.some.injEq] at h
    subst h
    exact whole_buffer_consumed data
  · cases hrest : data.slice (e + 1) data.len with
    | none => simp [hrest] at h
    | some rest =>
      simp only [hrest] at h
      cases hm : re rest.bytes with
      | none =>
        simp only [hm, Option.some.injEq] at h
        subst h
        exact needMoreData_consumed data
      | some loc =>
        obtain ⟨s2, e2⟩ := loc
        simp only [hm] at h
        cases ht : data.slice 0 (s2 + (e + 1)) with
        | none => simp [ht] at h
        | some t =>
          simp only [ht, Option.some.injEq] at h
          subst h
          exact Slice.slice_zero_bytes ht

/-- The leading data `data[0:firstMatchStart]` is never the nil slice when
`firstMatchStart != 0`, so the test `token != nil` of `LineStartSplitFunc` always
succeeds. -/
theorem leading_token_ne_nil {data token : Slice} {s : Int} (hs : s ≠ 0)
    (h : data.slice 0 s = some token) : token ≠ .nil := by
  obtain ⟨_, h1, h2, _, hn⟩ := Slice.slice_eq_some h
  intro hc
  have hd := hn.mp hc
  subst hd
  simp only [Slice.len_nil] at h2
  omega

theorem LineStartSplitFunc_token_consumed (re : Regexp) (flushAtEOF : Bool) (data : Slice)
    (atEOF : Bool) (r : SplitResult) (h : LineStartSplitFunc re flushAtEOF data atEOF = some r) :
    r.token.bytes = data.bytes.take r.advance.toNat ∧ r.token.len = r.advance := by
  unfold LineStartSplitFunc at h
  cases hm : re data.bytes with
  | none =>
    simp only [hm] at h
    split_ifs at h
    · simp only [Option.some.injEq] at h
      subst h
      exact whole_buffer_consumed data
    · simp only [Option.some.injEq] at h
      subst h
      exact needMoreData_consumed data
  | some loc =>
    obtain ⟨s, e⟩ := loc
    simp only [hm] at h
    split_ifs at h with h1
    · cases ht : data.slice 0 s with
      | none => simp [ht] at h
      | some t =>
        simp only [ht] at h
        rw [if_pos (leading_token_ne_nil h1 ht)] at h
        simp only [Option.some.injEq] at h
        subst h
        exact Slice.slice_zero_bytes ht
    · have h0 : s = 0 := not_not.mp h1
      subst h0
      exact lineStartFromFirstMatch_token_consumed re flushAtEOF data atEOF e r h

theorem LineEndSplitFunc_token_consumed (re : Regexp) (flushAtEOF : Bool) (data : Slice)
    (atEOF : Bool) (r : SplitResult) (h : LineEndSplitFunc re flushAtEOF data atEOF = some r) :
    r.token.bytes = data.bytes.take r.advance.toNat ∧ r.token.len = r.advance := by
  unfold LineEndSplitFunc at h
  cases hm : re data.bytes with
  | none =>
    simp only [hm] at h
    split_ifs at h
    · simp only [Option.some.injEq] at h
      subst h
      exact whole_buffer_consumed data
    · simp only [Option.some.injEq] at h
      subst h
      exact needMoreData_consumed data
  | some loc =>
    obtain ⟨s, e⟩ := loc
    simp only [hm] at h
    split_ifs at h with h1
    · simp only [Option.some.injEq] at h
      subst h
      exact needMoreData_consumed data
    · cases ht : data.slice 0 e with
      | none => simp [ht] at h
      | some t =>
        simp only [ht, Option.some.injEq] at h
        subst h
        exact Slice.slice_zero_bytes ht

/-! ## `bytes.TrimSuffix` and the newline strategy -/

/-- The contents of `bytes.TrimSuffix(s, suffix)`. -/
theorem bytesTrimSuffix_bytes (s : Slice) (suffix : List Byte) :
    (bytesTrimSuffix s suffix).bytes =
      if suffix <:+ s.bytes then s.bytes.take (s.bytes.length - suffix.length) else s.bytes := by
  unfold bytesTrimSuffix
  by_cases hs : suffix <:+ s.bytes
  · rw [if_pos (List.isSuffixOf_iff_suffix.mpr hs), if_pos hs]
    cases s <;> simp [Slice.bytes]
  · rw [if_neg (fun hc => hs (List.isSuffixOf_iff_suffix.mp hc)), if_neg hs]

/-- Trimming a non-nil slice gives a non-nil slice. -/
theorem bytesTrimSuffix_ne_nil {s : Slice} (suffix : List Byte) (hs : s ≠ .nil) :
    bytesTrimSuffix s suffix ≠ .nil := by
  unfold bytesTrimSuffix
  cases s with
  | nil => exact absurd rfl hs
  | of l => split_ifs <;> simp

/-- Putting a suffix back after cutting it off restores the list. -/
theorem take_append_suffix {l suffix : List Byte} (h : suffix <:+ l) :
    l.take (l.length - suffix.length) ++ suffix = l := by
  obtain ⟨t, rfl⟩ := h
  simp

/-- The bytes before an occurrence of `sep` at offset `i`, followed by `sep`, are the first
`i + len(sep)` bytes. -/
theorem take_append_of_occurrence {s sep : List Byte} {i : Nat} (h : sep <+: s.drop i) :
    s.take i ++ sep = s.take (i + sep.length) := by
  rw [List.take_add]
  congr 1
  exact List.prefix_iff_eq_take.mp h

/-- What `bytes.Index` returns when it does not return -1. -/
theorem bytesIndex_nonneg {s sep : List Byte} (h : 0 ≤ bytesIndex s sep) :
    ∃ i : Nat, firstIndex sep s = some i ∧ bytesIndex s sep = (i : Int) := by
  unfold bytesIndex at h ⊢
  cases hf : firstIndex sep s with
  | none => simp [hf] at h
  | some i => exact ⟨i, rfl, rfl⟩

theorem newlineSplit_token_consumed (newline carriageReturn : List Byte) (flushAtEOF : Bool)
    (data : Slice) (atEOF : Bool) (r : SplitResult)
    (h : newlineSplit newline carriageReturn flushAtEOF data atEOF = some r) :
    ∃ sep, (sep = [] ∨ sep = newline ∨ sep = carriageReturn ++ newline) ∧
      r.token.bytes ++ sep = data.bytes.take r.advance.toNat ∧
      r.advance = r.token.len + (sep.length : Int) := by
  unfold newlineSplit at h
  simp only at h
  split_ifs at h with h1 h2 h3 h4
  · simp only [Option.some.injEq] at h
    subst h
    exact ⟨[], Or.inl rfl, by simp [needMoreData, Slice.bytes], by simp [needMoreData, Slice.len, Slice.bytes]⟩
  · simp only [Option.some.injEq] at h
    subst h
    obtain ⟨i, hi, hidx⟩ := bytesIndex_nonneg (le_of_eq h2.symm)
    have hi0 : i = 0 := by omega
    subst hi0
    obtain ⟨_, hp, _⟩ := firstIndex_some hi
    refine ⟨newline, Or.inr (Or.inl rfl), ?_, by simp [Slice.len, Slice.bytes]⟩
    have := take_append_of_occurrence hp
    simpa [Slice.bytes] using this
  · obtain ⟨i, hi, hidx⟩ := bytesIndex_nonneg h3
    obtain ⟨hfit, hp, _⟩ := firstIndex_some hi
    rw [hidx] at h
    cases ht : data.slice 0 (i : Int) with
    | none => simp [ht] at h
    | some line =>
      simp only [ht, Option.some.injEq] at h
      subst h
      obtain ⟨hlb, hll⟩ := Slice.slice_zero_bytes ht
      simp only [Int.toNat_ofNat] at hlb
      have hocc := take_append_of_occurrence hp
      have hadv : ((i : Int) + (newline.length : Int)).toNat = i + newline.length := by omega
      have hlen : (line.bytes.length : Int) = (i : Int) := hll
      by_cases hs : carriageReturn <:+ line.bytes
      · refine ⟨carriageReturn ++ newline, Or.inr (Or.inr rfl), ?_, ?_⟩
        · simp only [bytesTrimSuffix_bytes, if_pos hs, hadv]
          rw [← List.append_assoc, take_append_suffix hs, hlb, hocc]
        · simp only [Slice.len, bytesTrimSuffix_bytes, if_pos hs, List.length_take,
            List.length_append]
          have := hs.length_le
          omega
      · refine ⟨newline, Or.inr (Or.inl rfl), ?_, ?_⟩
        · simp only [bytesTrimSuffix_bytes, if_neg hs, hadv]
          rw [hlb, hocc]
        · simp only [Slice.len, bytesTrimSuffix_bytes, if_neg hs]
          omega
  · simp only [Option.some.injEq] at h
    subst h
    exact ⟨[], Or.inl rfl, by simp [Slice.len], by simp⟩
  · simp only [Option.some.injEq] at h
    subst h
    exact ⟨[], Or.inl rfl, by simp [needMoreData, Slice.bytes], by simp [needMoreData, Slice.len, Slice.bytes]⟩

/-! ## Runs of the read loop -/

theorem Slice.dropFront_bytes (s : Slice) (n : Nat) : (s.dropFront n).bytes = s.bytes.drop n := by
  cases s <;> simp [Slice.dropFront, Slice.bytes]

theorem Slice.dropFront_len (s : Slice) (n : Nat) (h : (n : Int) ≤ s.len) :
    (s.dropFront n).len = s.len - (n : Int) := by
  unfold Slice.len at h ⊢
  rw [Slice.dropFront_bytes, List.length_drop]
  omega

/-- One unfolding of the read loop on a call that returned `r`. -/
theorem scanLoop_succ (f : SplitFunc) (atEOF : Bool) (fuel : Nat) (data : Slice)
    (r : SplitResult) (hr : f data atEOF = some r) :
    scanLoop f atEOF (fuel + 1) data =
      if r.advance = 0 ∧ r.token = .nil then some ([], data)
      else if r.advance < 0 ∨ data.len < r.advance then none
      else
        match scanLoop f atEOF fuel (data.dropFront r.advance.toNat) with
        | none => none
        | some (steps, rest) => some (r :: steps, rest) := by
  rw [scanLoop, hr]

/-- If every call of a split function consumes its token followed by a separator allowed
by `Q`, a run consumes the concatenation of its tokens and separators, and what it leaves
is the rest of the buffer. -/
theorem scanLoop_reassemble (f : SplitFunc) (atEOF : Bool) (Q : List Byte → Prop)
    (hf : ∀ data r, f data atEOF = some r →
      ∃ sep, Q sep ∧ r.token.bytes ++ sep = data.bytes.take r.advance.toNat) :
    ∀ (fuel : Nat) (data : Slice) (steps : List SplitResult) (rest : Slice),
      scanLoop f atEOF fuel data = some (steps, rest) →
      ∃ seps : List (List Byte), seps.length = steps.length ∧ (∀ sep ∈ seps, Q sep) ∧
        reassemble steps seps ++ rest.bytes = data.bytes := by
  intro fuel
  induction fuel with
  | zero => intro data steps rest h; simp [scanLoop] at h
  | succ fuel ih =>
    intro data steps rest h
    cases hr : f data atEOF with
    | none => simp [scanLoop, hr] at h
    | some r =>
      rw [scanLoop_succ f atEOF fuel data r hr] at h
      split_ifs at h with h1 h2
      · simp only [Option.some.injEq, Prod.mk.injEq] at h
        obtain ⟨rfl, rfl⟩ := h
        exact ⟨[], rfl, by simp, by simp [reassemble]⟩
      · cases hrec : scanLoop f atEOF fuel (data.dropFront r.advance.toNat) with
        | none => simp [hrec] at h
        | some res =>
          obtain ⟨steps2, rest2⟩ := res
          simp only [hrec, Option.some.injEq, Prod.mk.injEq] at h
          obtain ⟨rfl, rfl⟩ := h
          obtain ⟨seps, hlen, hQ, hcat⟩ := ih _ _ _ hrec
          obtain ⟨sep, hsep, hpre⟩ := hf data r hr
          refine ⟨sep :: seps, by simp [hlen], ?_, ?_⟩
          · intro x hx
            rcases List.mem_cons.mp hx with rfl | hx
            · exact hsep
            · exact hQ x hx
          · rw [Slice.dropFront_bytes] at hcat
            have : reassemble (r :: steps2) (sep :: seps) =
                (r.token.bytes ++ sep) ++ reassemble steps2 seps := by
              simp [reassemble]
            rw [this, hpre, List.append_assoc, hcat, List.take_append_drop]

/-- With empty separators only, the reassembled bytes are the tokens end to end. -/
theorem reassemble_empty_seps : ∀ (steps : List SplitResult) (seps : List (List Byte)),
    seps.length = steps.length → (∀ sep ∈ seps, sep = []) →
    reassemble steps seps = ((stepTokens steps).map Slice.bytes).flatten
  | [], seps, _, _ => by simp [reassemble, stepTokens]
  | r :: steps, [], h, _ => by simp at h
  | r :: steps, sep :: seps, h, hq => by
    have h1 : sep = [] := hq sep (List.mem_cons_self _ _)
    have h2 := reassemble_empty_seps steps seps (by simpa using h)
      (fun x hx => hq x (List.mem_cons_of_mem _ hx))
    simp only [reassemble, stepTokens] at h2 ⊢
    simp [h1, h2]

/-- A run of a strategy whose calls consume exactly their token leaves nothing out: the
tokens end to end, followed by the buffer that is left, are the buffer. -/
theorem scanLoop_tokens_concat (f : SplitFunc) (atEOF : Bool)
    (hf : ∀ data r, f data atEOF = some r →
      r.token.bytes = data.bytes.take r.advance.toNat ∧ r.token.len = r.advance)
    (fuel : Nat) (data : Slice) (steps : List SplitResult) (rest : Slice)
    (h : scanLoop f atEOF fuel data = some (steps, rest)) :
    ((stepTokens steps).map Slice.bytes).flatten ++ rest.bytes = data.bytes := by
  obtain ⟨seps, hlen, hQ, hcat⟩ := scanLoop_reassemble f atEOF (fun sep => sep = [])
    (fun d r hr => ⟨[], rfl, by simpa using (hf d r hr).1⟩) fuel data steps rest h
  rw [← reassemble_empty_seps steps seps hlen hQ]
  exact hcat

/-- C2. Every call of a strategy that returns consumes its token followed by the
discarded separator and nothing else. For `NoSplitFunc`, `LineStartSplitFunc` and
`LineEndSplitFunc` the token is the consumed prefix `data[0:advance]` itself and
`len(token) = advance`. For `NewlineSplitFunc` the consumed prefix is the token followed
by a separator that is empty, the encoded newline, or the encoded carriage return
followed by the encoded newline. Hence over any run of the read loop the tokens and
separators, end to end, followed by the bytes left in the buffer, are the bytes of the
buffer: nothing is dropped, duplicated or introduced. -/
theorem consumed_prefix_is_token_then_separator (newline carriageReturn : List Byte)
    (re : Regexp) (maxLogSize : Int) (flushAtEOF : Bool) (data : Slice) (atEOF : Bool) :
    (∀ r, NoSplitFunc maxLogSize data atEOF = some r →
      r.token.bytes = data.bytes.take r.advance.toNat ∧ r.token.len = r.advance) ∧
    (∀ r, LineStartSplitFunc re flushAtEOF data atEOF = some r →
      r.token.bytes = data.bytes.take r.advance.toNat ∧ r.token.len = r.advance) ∧
    (∀ r, LineEndSplitFunc re flushAtEOF data atEOF = some r →
      r.token.bytes = data.bytes.take r.advance.toNat ∧ r.token.len = r.advance) ∧
    (∀ r, newlineSplit newline carriageReturn flushAtEOF data atEOF = some r →
      ∃ sep, (sep = [] ∨ sep = newline ∨ sep = carriageReturn ++ newline) ∧
        r.token.bytes ++ sep = data.bytes.take r.advance.toNat ∧
        r.advance = r.token.len + (sep.length : Int)) ∧
    (∀ fuel steps rest, scanLoop (NoSplitFunc maxLogSize) atEOF fuel data = some (steps, rest) →
      ((stepTokens steps).map Slice.bytes).flatten ++ rest.bytes = data.bytes) ∧
    (∀ fuel steps rest,
      scanLoop (LineStartSplitFunc re flushAtEOF) atEOF fuel data = some (steps, rest) →
      ((stepTokens steps).map Slice.bytes).flatten ++ rest.bytes = data.bytes) ∧
    (∀ fuel steps rest,
      scanLoop (LineEndSplitFunc re flushAtEOF) atEOF fuel data = some (steps, rest) →
      ((stepTokens steps).map Slice.bytes).flatten ++ rest.bytes = data.bytes) ∧
    (∀ fuel steps rest,
      scanLoop (newlineSplit newline carriageReturn flushAtEOF) atEOF fuel data =
        some (steps, rest) →
      ∃ seps : List (List Byte), seps.length = steps.length ∧
        (∀ sep ∈ seps, sep = [] ∨ sep = newline ∨ sep = carriageReturn ++ newline) ∧
        reassemble steps seps ++ rest.bytes = data.bytes) := by
  refine ⟨NoSplitFunc_token_consumed _ _ _, LineStartSplitFunc_token_consumed _ _ _ _,
    LineEndSplitFunc_token_consumed _ _ _ _, newlineSplit_token_consumed _ _ _ _ _, ?_, ?_, ?_, ?_⟩
  · intro fuel steps rest h
    exact scanLoop_tokens_concat _ atEOF (fun d r hr => NoSplitFunc_token_consumed _ d _ r hr)
      fuel data steps rest h
  · intro fuel steps rest h
    exact scanLoop_tokens_concat _ atEOF
      (fun d r hr => LineStartSplitFunc_token_consumed _ _ d _ r hr) fuel data steps rest h
  · intro fuel steps rest h
    exact scanLoop_tokens_concat _ atEOF
      (fun d r hr => LineEndSplitFunc_token_consumed _ _ d _ r hr) fuel data steps rest h
  · intro fuel steps rest h
    exact scanLoop_reassemble _ atEOF
      (fun sep => sep = [] ∨ sep = newline ∨ sep = carriageReturn ++ newline)
      (fun d r hr => by
        obtain ⟨sep, h1, h2, _⟩ := newlineSplit_token_consumed _ _ _ d _ r hr
        exact ⟨sep, h1, h2⟩) fuel data steps rest h

/-- C2 on the buffer `"a\r\n\nb"` with flushing at end-of-stream: the first call consumes
`"a"` and the separator `"\r\n"`; the run emits `"a"`, `""`, `"b"` and the tokens with
their separators give back the five bytes. -/
theorem consumed_prefix_is_token_then_separator_witness :
    (∃ sep, (sep = [] ∨ sep = [10] ∨ sep = [13] ++ [10]) ∧
        (Slice.of [97]).bytes ++ sep = (Slice.of [97, 13, 10, 10, 98]).bytes.take (3 : Int).toNat ∧
        (3 : Int) = (Slice.of [97]).len + (sep.length : Int)) ∧
    (∃ seps : List (List Byte), seps.length = 3 ∧
        (∀ sep ∈ seps, sep = [] ∨ sep = [10] ∨ sep = [13] ++ [10]) ∧
        reassemble [⟨3, .of [97], none⟩, ⟨1, .of [], none⟩, ⟨1, .of [98], none⟩] seps ++
          (Slice.of []).bytes = [97, 13, 10, 10, 98]) :=
  ⟨(consumed_prefix_is_token_then_separator [10] [13] (findByte 76) 4 true
      (.of [97, 13, 10, 10, 98]) true).2.2.2.1 ⟨3, .of [97], none⟩ (by decide),
   (consumed_prefix_is_token_then_separator [10] [13] (findByte 76) 4 true
      (.of [97, 13, 10, 10, 98]) true).2.2.2.2.2.2.2 10
      [⟨3, .of [97], none⟩, ⟨1, .of [], none⟩, ⟨1, .of [98], none⟩] (.of []) (by decide)⟩

/-! ## The selector `Config.Func` -/

/-- C3. `Config.Func` returns a nil split function and a non-nil error whenever both
patterns are non-empty (whatever the encoding, `flushAtEOF` and `maxLogSize`), and
whenever the encoding is `encoding.Nop` and at least one pattern is non-empty; with
`encoding.Nop` and both patterns empty it returns no error (and `NoSplitFunc(maxLogSize)`). -/
theorem Func_rejects_conflicting_configuration (compile : String → Except String Regexp)
    (c : Config) (enc : Encoding) (flushAtEOF : Bool) (maxLogSize : Int) :
    (c.LineStartPattern ≠ "" → c.LineEndPattern ≠ "" →
      (c.Func compile enc flushAtEOF maxLogSize).1 = none ∧
      (c.Func compile enc flushAtEOF maxLogSize).2 ≠ none) ∧
    (enc.isNop = true → (c.LineStartPattern ≠ "" ∨ c.LineEndPattern ≠ "") →
      (c.Func compile enc flushAtEOF maxLogSize).1 = none ∧
      (c.Func compile enc flushAtEOF maxLogSize).2 ≠ none) ∧
    (enc.isNop = true → c.LineStartPattern = "" → c.LineEndPattern = "" →
      (c.Func compile enc flushAtEOF maxLogSize).1 = some (NoSplitFunc maxLogSize) ∧
      (c.Func compile enc flushAtEOF maxLogSize).2 = none) := by
  refine ⟨?_, ?_, ?_⟩
  · intro hs he
    unfold Config.Func
    rw [if_pos ⟨he, hs⟩]
    exact ⟨rfl, by simp⟩
  · intro hnop hpat
    unfold Config.Func
    by_cases hboth : c.LineEndPattern ≠ "" ∧ c.LineStartPattern ≠ ""
    · rw [if_pos hboth]
      exact ⟨rfl, by simp⟩
    · rw [if_neg hboth, if_pos ⟨hnop, hpat.symm⟩]
      exact ⟨rfl, by simp⟩
  · intro hnop hs he
    unfold Config.Func
    rw [if_neg (fun h => h.1 he), if_neg (fun h => h.2.elim (fun k => k he) (fun k => k hs)),
      if_pos hnop]
    exact ⟨rfl, rfl⟩

/-- C3 at concrete configurations: both patterns set under UTF-8, one pattern set under
`encoding.Nop`, and no pattern under `encoding.Nop`. -/
theorem Func_rejects_conflicting_configuration_witness :
    ((Config.Func exampleCompile ⟨"^LOG:", ";$"⟩ utf8Encoding true 4).1 = none ∧
      (Config.Func exampleCompile ⟨"^LOG:", ";$"⟩ utf8Encoding true 4).2 ≠ none) ∧
    ((Config.Func exampleCompile ⟨"^LOG:", ""⟩ nopEncoding true 4).1 = none ∧
      (Config.Func exampleCompile ⟨"^LOG:", ""⟩ nopEncoding true 4).2 ≠ none) ∧
    ((Config.Func exampleCompile ⟨"", ""⟩ nopEncoding true 4).1 = some (NoSplitFunc 4) ∧
      (Config.Func exampleCompile ⟨"", ""⟩ nopEncoding true 4).2 = none) :=
  ⟨(Func_rejects_conflicting_configuration exampleCompile ⟨"^LOG:", ";$"⟩ utf8Encoding true 4).1
      (by decide) (by decide),
   (Func_rejects_conflicting_configuration exampleCompile ⟨"^LOG:", ""⟩ nopEncoding true 4).2.1
      rfl (Or.inl (by decide)),
   (Func_rejects_conflicting_configuration exampleCompile ⟨"", ""⟩ nopEncoding true 4).2.2
      rfl rfl rfl⟩

/-! ## `NoSplitFunc` -/

/-- C4. `NoSplitFunc(maxLogSize)` is the four-case function: when
`len(buffer) >= maxLogSize` the result is `(maxLogSize, buffer[0:maxLogSize])` whatever the
end-of-stream flag (the value of that slice expression; for `0 <= maxLogSize` it exists
and holds the first `maxLogSize` bytes); otherwise `(0, nil)` when not at end-of-stream;
otherwise `(0, nil)` when the buffer is empty; otherwise `(len(buffer), buffer)`. Every
emitted token is at most `maxLogSize` bytes long. -/
theorem NoSplitFunc_four_cases (maxLogSize : Int) (data : Slice) (atEOF : Bool) :
    (maxLogSize ≤ data.len → NoSplitFunc maxLogSize data atEOF =
      (data.slice 0 maxLogSize).map (fun token => ⟨maxLogSize, token, none⟩)) ∧
    (0 ≤ maxLogSize → maxLogSize ≤ data.len →
      ∃ token, NoSplitFunc maxLogSize data atEOF = some ⟨maxLogSize, token, none⟩ ∧
        token.bytes = data.bytes.take maxLogSize.toNat ∧ token.len = maxLogSize) ∧
    (data.len < maxLogSize → atEOF = false →
      NoSplitFunc maxLogSize data atEOF = some ⟨0, .nil, none⟩) ∧
    (data.len < maxLogSize → atEOF = true → data.len = 0 →
      NoSplitFunc maxLogSize data atEOF = some ⟨0, .nil, none⟩) ∧
    (data.len < maxLogSize → atEOF = true → data.len ≠ 0 →
      NoSplitFunc maxLogSize data atEOF = some ⟨data.len, data, none⟩) ∧
    (∀ r, NoSplitFunc maxLogSize data atEOF = some r → r.token.len ≤ maxLogSize) := by
  refine ⟨?_, ?_, ?_, ?_, ?_, ?_⟩
  · intro h
    unfold NoSplitFunc
    rw [if_pos h]
    cases data.slice 0 maxLogSize <;> rfl
  · intro h0 h
    obtain ⟨t, ht⟩ := data.slice_of_bounds 0 maxLogSize (le_refl 0) h0 h
    obtain ⟨hb, hl⟩ := Slice.slice_zero_bytes ht
    refine ⟨t, ?_, hb, hl⟩
    unfold NoSplitFunc
    rw [if_pos h, ht]
  · intro h he
    unfold NoSplitFunc
    rw [if_neg (not_le.mpr h), if_pos he]
    rfl
  · intro h he h0
    unfold NoSplitFunc
    rw [if_neg (not_le.mpr h), if_neg (by simp [he]), if_pos h0]
    rfl
  · intro h he h0
    unfold NoSplitFunc
    rw [if_neg (not_le.mpr h), if_neg (by simp [he]), if_neg h0]
  · intro r hr
    have hp := (NoSplitFunc_token_consumed maxLogSize data atEOF r hr).2
    unfold NoSplitFunc at hr
    split_ifs at hr with h1 h2 h3
    · cases ht : data.slice 0 maxLogSize with
      | none => simp [ht] at hr
      | some t =>
        simp only [ht, Option.some.injEq] at hr
        subst hr
        exact le_of_eq hp
    · simp only [Option.some.injEq] at hr
      subst hr
      have := data.len_nonneg
      simp only [needMoreData, Slice.len_nil]
      omega
    · simp only [Option.some.injEq] at hr
      subst hr
      have := data.len_nonneg
      simp only [needMoreData, Slice.len_nil]
      omega
    · simp only [Option.some.injEq] at hr
      subst hr
      simp only
      omega

/-- C4 on five- and two-byte buffers with `maxLogSize = 4`. -/
theorem NoSplitFunc_four_cases_witness :
    (NoSplitFunc 4 (.of [1, 2, 3, 4, 5]) false =
      ((Slice.of [1, 2, 3, 4, 5]).slice 0 4).map (fun token => ⟨4, token, none⟩)) ∧
    (∃ token, NoSplitFunc 4 (.of [1, 2, 3, 4, 5]) false = some ⟨4, token, none⟩ ∧
        token.bytes = (Slice.of [1, 2, 3, 4, 5]).bytes.take (4 : Int).toNat ∧ token.len = 4) ∧
    (NoSplitFunc 4 (.of [1, 2]) false = some ⟨0, .nil, none⟩) ∧
    (NoSplitFunc 4 (.of []) true = some ⟨0, .nil, none⟩) ∧
    (NoSplitFunc 4 (.of [1, 2]) true = some ⟨(Slice.of [1, 2]).len, .of [1, 2], none⟩) ∧
    ((Slice.of [1, 2, 3, 4]).len ≤ 4) :=
  ⟨(NoSplitFunc_four_cases 4 (.of [1, 2, 3, 4, 5]) false).1 (by decide),
   (NoSplitFunc_four_cases 4 (.of [1, 2, 3, 4, 5]) false).2.1 (by decide) (by decide),
   (NoSplitFunc_four_cases 4 (.of [1, 2]) false).2.2.1 (by decide) rfl,
   (NoSplitFunc_four_cases 4 (.of []) true).2.2.2.1 (by decide) rfl (by decide),
   (NoSplitFunc_four_cases 4 (.of [1, 2]) true).2.2.2.2.1 (by decide) rfl (by decide),
   (NoSplitFunc_four_cases 4 (.of [1, 2, 3, 4, 5]) false).2.2.2.2.2
      ⟨4, .of [1, 2, 3, 4], none⟩ (by decide)⟩

/-! ## Chunked runs of `NoSplitFunc` -/

/-- The number of chunks of a non-empty list is one more than that of what is left after
the first chunk. -/
theorem chunk_count_step (n len : Nat) (hn : 0 < n) (hlen : 0 < len) :
    (len + n - 1) / n = ((len - n) + n - 1) / n + 1 := by
  have h1 : len + n - 1 = (len - 1) + n := by omega
  rw [h1, Nat.add_div_right _ hn]
  congr 1
  by_cases h : n ≤ len
  · congr 1
    omega
  · rw [Nat.div_eq_of_lt (by omega), Nat.div_eq_of_lt (by omega)]

theorem chunks_nil (n : Nat) (hn : 0 < n) : chunks n [] = [] := by
  unfold chunks
  have : (([] : List Byte).length + n - 1) / n = 0 := by
    simp only [List.length_nil, Nat.zero_add]
    exact Nat.div_eq_of_lt (by omega)
  rw [this]
  rfl

/-- The chunks of a non-empty list: its first `n` bytes, then the chunks of the rest. -/
theorem chunks_cons (n : Nat) (hn : 0 < n) (l : List Byte) (hl : l ≠ []) :
    chunks n l = l.take n :: chunks n (l.drop n) := by
  have hpos : 0 < l.length := List.length_pos.mpr hl
  unfold chunks
  rw [chunk_count_step n l.length hn hpos, List.length_drop, List.range_succ_eq_map,
    List.map_cons, List.map_map]
  congr 1
  · simp
  · apply List.map_congr_left
    intro k _
    simp only [Function.comp_apply, List.drop_drop]
    congr 2
    rw [Nat.succ_mul]
    omega

theorem chunks_length (n : Nat) (l : List Byte) :
    (chunks n l).length = (l.length + n - 1) / n := by
  simp [chunks]

/-- Chunk `k` is `l[k*n : min((k+1)*n, len l)]`. -/
theorem chunks_getElem (n : Nat) (l : List Byte) (k : Nat) (hk : k < (l.length + n - 1) / n) :
    (chunks n l)[k]? = some ((l.take (min ((k + 1) * n) l.length)).drop (k * n)) := by
  unfold chunks
  rw [List.getElem?_map, List.getElem?_range hk]
  simp only [Option.map_some', Option.some.injEq]
  rw [List.drop_take, List.take_eq_take]
  simp only [List.length_drop]
  rw [Nat.succ_mul]
  omega

/-- The chunks, end to end, are the list. -/
theorem chunks_flatten (n : Nat) (hn : 0 < n) : ∀ (len : Nat) (l : List Byte),
    l.length ≤ len → (chunks n l).flatten = l
  | 0, l, h => by
    have : l = [] := List.length_eq_zero.mp (by omega)
    subst this
    rw [chunks_nil n hn]
    rfl
  | len + 1, l, h => by
    by_cases hl : l = []
    · subst hl
      rw [chunks_nil n hn]
      rfl
    · have hpos : 0 < l.length := List.length_pos.mpr hl
      rw [chunks_cons n hn l hl, List.flatten_cons,
        chunks_flatten n hn len (l.drop n) (by rw [List.length_drop]; omega),
        List.take_append_drop]

/-- Every chunk but the last is `n` bytes long. -/
theorem chunks_full (n : Nat) (hn : 0 < n) (l : List Byte) (k : Nat) (c : List Byte)
    (hk : k + 1 < (chunks n l).length) (hc : (chunks n l)[k]? = some c) : c.length = n := by
  rw [chunks_length] at hk
  rw [chunks_getElem n l k (by omega)] at hc
  simp only [Option.some.injEq] at hc
  subst hc
  have h2 : (k + 2) * n ≤ l.length + n - 1 := (Nat.le_div_iff_mul_le hn).mp hk
  have e1 : (k + 2) * n = k * n + n + n := by ring
  have e2 : (k + 1) * n = k * n + n := by ring
  rw [List.length_drop, List.length_take, e2]
  omega

theorem Slice.dropFront_zero (s : Slice) : s.dropFront 0 = s := by
  cases s <;> simp [Slice.dropFront]

theorem Slice.dropFront_dropFront (s : Slice) (a b : Nat) :
    (s.dropFront a).dropFront b = s.dropFront (a + b) := by
  cases s with
  | nil => rfl
  | of l => simp [Slice.dropFront, List.drop_drop, Nat.add_comm]

/-- A slice with at least one byte is not nil. -/
theorem Slice.eq_of_of_len_pos (s : Slice) (h : 0 < s.len) : s = .of s.bytes := by
  cases s with
  | nil => simp [Slice.len_nil] at h
  | of l => rfl

/-- A call of `NoSplitFunc` on a buffer of at least `m > 0` bytes emits the first chunk. -/
theorem NoSplitFunc_full_chunk (m : Nat) (hm : 0 < m) (data : Slice) (atEOF : Bool)
    (h : m ≤ data.bytes.length) :
    NoSplitFunc (m : Int) data atEOF = some (chunkStep (data.bytes.take m)) := by
  have hlen : (m : Int) ≤ data.len := by unfold Slice.len; omega
  have hd := data.eq_of_of_len_pos (by omega)
  unfold NoSplitFunc
  rw [if_pos hlen]
  rw [hd]
  simp only [Slice.slice, Slice.bytes_of, Slice.len_of]
  rw [if_pos ⟨le_refl 0, by omega, by omega⟩]
  simp [chunkStep, List.length_take, h]

/-- At end-of-stream a call on a non-empty buffer shorter than `m` emits it whole. -/
theorem NoSplitFunc_last_chunk (m : Nat) (data : Slice)
    (h : data.bytes.length < m) (h0 : 0 < data.bytes.length) :
    NoSplitFunc (m : Int) data true = some (chunkStep (data.bytes.take m)) := by
  have hlen : ¬ (data.len ≥ (m : Int)) := by unfold Slice.len; omega
  have hd := data.eq_of_of_len_pos (by unfold Slice.len; omega)
  unfold NoSplitFunc
  rw [if_neg hlen, if_neg (by simp), if_neg (by unfold Slice.len; omega)]
  rw [List.take_of_length_le (by omega)]
  unfold chunkStep
  rw [← hd]
  rfl

/-- The read loop continues after a call that emitted a chunk of `k > 0` bytes taken from
the front of the buffer. -/
theorem scanLoop_chunkStep (f : SplitFunc) (atEOF : Bool) (fuel : Nat) (data : Slice)
    (c : List Byte) (hr : f data atEOF = some (chunkStep c))
    (hc : c.length ≤ data.bytes.length) :
    scanLoop f atEOF (fuel + 1) data =
      match scanLoop f atEOF fuel (data.dropFront c.length) with
      | none => none
      | some (steps, rest) => some (chunkStep c :: steps, rest) := by
  rw [scanLoop_succ f atEOF fuel data _ hr]
  have h1 : ¬ ((chunkStep c).advance = 0 ∧ (chunkStep c).token = .nil) := by
    simp [chunkStep]
  have h2 : ¬ ((chunkStep c).advance < 0 ∨ data.len < (chunkStep c).advance) := by
    simp only [chunkStep, Slice.len]
    omega
  rw [if_neg h1, if_neg h2]
  simp [chunkStep]

/-- At end-of-stream the run of `NoSplitFunc(m)` emits the chunks of the buffer and
leaves nothing, given one call per chunk and one more. -/
theorem scanLoop_NoSplitFunc_eof (m : Nat) (hm : 0 < m) : ∀ (fuel : Nat) (data : Slice),
    (data.bytes.length + m - 1) / m < fuel →
    ∃ rest, scanLoop (NoSplitFunc (m : Int)) true fuel data =
        some ((chunks m data.bytes).map chunkStep, rest) ∧ rest.bytes = []
  | 0, _, h => absurd h (Nat.not_lt_zero _)
  | fuel + 1, data, h => by
    by_cases hl : data.bytes = []
    · have hr : NoSplitFunc (m : Int) data true = some needMoreData := by
        unfold NoSplitFunc
        rw [if_neg (by simp [Slice.len, hl]; omega), if_neg (by simp),
          if_pos (by simp [Slice.len, hl])]
      refine ⟨data, ?_, hl⟩
      rw [scanLoop_succ _ _ _ _ _ hr, if_pos ⟨rfl, rfl⟩, hl, chunks_nil m hm]
      rfl
    · have hpos : 0 < data.bytes.length := List.length_pos.mpr hl
      have hr : NoSplitFunc (m : Int) data true = some (chunkStep (data.bytes.take m)) := by
        by_cases hfull : m ≤ data.bytes.length
        · exact NoSplitFunc_full_chunk m hm data true hfull
        · exact NoSplitFunc_last_chunk m data (by omega) hpos
      have hstep := chunk_count_step m data.bytes.length hm hpos
      have hdrop : (data.dropFront (data.bytes.take m).length).bytes = data.bytes.drop m := by
        rw [Slice.dropFront_bytes, List.length_take]
        by_cases hfull : m ≤ data.bytes.length
        · rw [Nat.min_eq_left hfull]
        · rw [Nat.min_eq_right (by omega), List.drop_length,
            List.drop_eq_nil_of_le (by omega)]
      obtain ⟨rest, hrec, hrest⟩ := scanLoop_NoSplitFunc_eof m hm fuel
        (data.dropFront (data.bytes.take m).length)
        (by rw [hdrop, List.length_drop]; omega)
      refine ⟨rest, ?_, hrest⟩
      rw [scanLoop_chunkStep _ _ _ _ _ hr (by rw [List.length_take]; omega), hrec, hdrop,
        chunks_cons m hm _ hl]
      rfl

/-- Before end-of-stream the run of `NoSplitFunc(m)` emits the full chunks only and holds
the final partial chunk. -/
theorem scanLoop_NoSplitFunc_more (m : Nat) (hm : 0 < m) : ∀ (fuel : Nat) (data : Slice),
    data.bytes.length / m < fuel →
    scanLoop (NoSplitFunc (m : Int)) false fuel data =
      some (((chunks m data.bytes).take (data.bytes.length / m)).map chunkStep,
        data.dropFront (data.bytes.length / m * m))
  | 0, _, h => absurd h (Nat.not_lt_zero _)
  | fuel + 1, data, h => by
    by_cases hfull : m ≤ data.bytes.length
    · have hl : data.bytes ≠ [] := by
        intro hc
        rw [hc] at hfull
        simp at hfull
        omega
      have hr := NoSplitFunc_full_chunk m hm data false hfull
      have hlt : (data.bytes.take m).length = m := by
        rw [List.length_take]
        omega
      have hdiv : data.bytes.length / m = (data.bytes.length - m) / m + 1 := by
        have : data.bytes.length = (data.bytes.length - m) + m := by omega
        conv_lhs => rw [this]
        exact Nat.add_div_right _ hm
      have hrec := scanLoop_NoSplitFunc_more m hm fuel (data.dropFront m)
        (by rw [Slice.dropFront_bytes, List.length_drop]; omega)
      rw [scanLoop_chunkStep _ _ _ _ _ hr (by rw [hlt]; exact hfull), hlt, hrec,
        Slice.dropFront_bytes, List.length_drop, Slice.dropFront_dropFront, hdiv,
        chunks_cons m hm _ hl, List.take_succ_cons, List.map_cons]
      simp only [Option.some.injEq, Prod.mk.injEq, true_and]
      congr 1
      rw [Nat.add_mul]
      omega
    · have hr : NoSplitFunc (m : Int) data false = some needMoreData := by
        unfold NoSplitFunc
        rw [if_neg (by unfold Slice.len; omega), if_pos rfl]
      rw [scanLoop_succ _ _ _ _ _ hr, if_pos ⟨rfl, rfl⟩, Nat.div_eq_of_lt (by omega)]
      simp [Slice.dropFront_zero]

/-- C5. For `maxLogSize > 0` and a buffer of `n` bytes, the run of `NoSplitFunc(maxLogSize)`
at end-of-stream (calls repeated, the advance dropped each time, until `(0, nil)`) ends
after exactly `ceil(n / maxLogSize)` tokens and leaves an empty buffer; token `k` is
`buffer[k*maxLogSize : min((k+1)*maxLogSize, n)]`, each with `advance = len(token)`; all
tokens but possibly the last are `maxLogSize` bytes long and the tokens end to end are the
buffer. Before end-of-stream the run emits the first `floor(n / maxLogSize)` chunks only
and holds the remaining `n mod maxLogSize` bytes. -/
theorem NoSplitFunc_run_emits_chunks (maxLogSize : Int) (hmax : 0 < maxLogSize) (data : Slice) :
    (∀ fuel, (data.bytes.length + maxLogSize.toNat - 1) / maxLogSize.toNat < fuel →
      ∃ rest, scanLoop (NoSplitFunc maxLogSize) true fuel data =
          some ((chunks maxLogSize.toNat data.bytes).map chunkStep, rest) ∧ rest.bytes = []) ∧
    (chunks maxLogSize.toNat data.bytes).length =
      (data.bytes.length + maxLogSize.toNat - 1) / maxLogSize.toNat ∧
    (∀ k, k < (data.bytes.length + maxLogSize.toNat - 1) / maxLogSize.toNat →
      (chunks maxLogSize.toNat data.bytes)[k]? =
        some ((data.bytes.take (min ((k + 1) * maxLogSize.toNat) data.bytes.length)).drop
          (k * maxLogSize.toNat))) ∧
    (∀ k c, k + 1 < (chunks maxLogSize.toNat data.bytes).length →
      (chunks maxLogSize.toNat data.bytes)[k]? = some c → (c.length : Int) = maxLogSize) ∧
    (chunks maxLogSize.toNat data.bytes).flatten = data.bytes ∧
    (∀ fuel, data.bytes.length / maxLogSize.toNat < fuel →
      scanLoop (NoSplitFunc maxLogSize) false fuel data =
        some (((chunks maxLogSize.toNat data.bytes).take
            (data.bytes.length / maxLogSize.toNat)).map chunkStep,
          data.dropFront (data.bytes.length / maxLogSize.toNat * maxLogSize.toNat))) ∧
    (data.dropFront (data.bytes.length / maxLogSize.toNat * maxLogSize.toNat)).bytes.length =
      data.bytes.length % maxLogSize.toNat := by
  obtain ⟨m, rfl⟩ : ∃ m : Nat, maxLogSize = (m : Int) := ⟨maxLogSize.toNat, by omega⟩
  have hm : 0 < m := by omega
  simp only [Int.toNat_ofNat]
  refine ⟨fun fuel h => scanLoop_NoSplitFunc_eof m hm fuel data h, chunks_length m _,
    fun k hk => chunks_getElem m _ k hk, ?_, chunks_flatten m hm _ _ (le_refl _),
    fun fuel h => scanLoop_NoSplitFunc_more m hm fuel data h, ?_⟩
  · intro k c hk hc
    rw [chunks_full m hm _ k c hk hc]
  · rw [Slice.dropFront_bytes, List.length_drop]
    have := Nat.div_add_mod data.bytes.length m
    rw [Nat.mul_comm] at this
    omega

/-- C5 on ten bytes with `maxLogSize = 4`: at end-of-stream the run emits tokens of
lengths 4, 4 and 2; before end-of-stream it emits the two full chunks and holds 2 bytes. -/
theorem NoSplitFunc_run_emits_chunks_witness :
    (0 : Int) < 4 ∧
    (∃ rest, scanLoop (NoSplitFunc 4) true 4 (.of [1, 2, 3, 4, 5, 6, 7, 8, 9, 10]) =
        some ((chunks (4 : Int).toNat
          (Slice.of [1, 2, 3, 4, 5, 6, 7, 8, 9, 10]).bytes).map chunkStep, rest) ∧
        rest.bytes = []) ∧
    (chunks 4 [1, 2, 3, 4, 5, 6, 7, 8, 9, 10]).map List.length = [4, 4, 2] ∧
    scanLoop (NoSplitFunc 4) false 3 (.of [1, 2, 3, 4, 5, 6, 7, 8, 9, 10]) =
      some ([chunkStep [1, 2, 3, 4], chunkStep [5, 6, 7, 8]], .of [9, 10]) :=
  ⟨by decide,
   (NoSplitFunc_run_emits_chunks 4 (by decide) (.of [1, 2, 3, 4, 5, 6, 7, 8, 9, 10])).1 4
      (by decide),
   by decide,
   (NoSplitFunc_run_emits_chunks 4 (by decide)
      (.of [1, 2, 3, 4, 5, 6, 7, 8, 9, 10])).2.2.2.2.2.1 3 (by decide)⟩

/-! ## `NewlineSplitFunc` call by call -/

/-- C6. For a non-empty encoded newline `nl` whose first occurrence in the buffer is at
offset `i`, for every end-of-stream flag and flush policy the call returns
`advance = i + len(nl)` and a non-nil token: `buffer[0:i]` without its trailing `cr` when
`buffer[0:i]` ends with `cr` (the token followed by one `cr` is `buffer[0:i]`, so exactly
one is stripped), and `buffer[0:i]` unchanged otherwise. For `i = 0` the token is the
empty non-nil token and `advance = len(nl)`. -/
theorem newlineSplit_at_first_newline (nl cr : List Byte) (hnl : nl ≠ []) (flushAtEOF : Bool)
    (data : Slice) (atEOF : Bool) (i : Nat) (hocc : nl <+: data.bytes.drop i)
    (hfirst : ∀ j, j < i → ¬ nl <+: data.bytes.drop j) :
    ∃ token, newlineSplit nl cr flushAtEOF data atEOF =
        some ⟨(i : Int) + (nl.length : Int), token, none⟩ ∧
      token ≠ .nil ∧
      (cr <:+ data.bytes.take i → token.bytes ++ cr = data.bytes.take i) ∧
      (¬ cr <:+ data.bytes.take i → token.bytes = data.bytes.take i) ∧
      (i = 0 → token = .of []) := by
  have hfi := firstIndex_of_first hocc hfirst
  obtain ⟨hfit, _, _⟩ := firstIndex_some hfi
  have hnlpos : 0 < nl.length := List.length_pos.mpr hnl
  have hidx : bytesIndex data.bytes nl = (i : Int) := by
    unfold bytesIndex
    rw [hfi]
  have hne : ¬ (atEOF = true ∧ data.len = 0) := by
    intro hc
    have := hc.2
    unfold Slice.len at this
    omega
  have hd := data.eq_of_of_len_pos (by unfold Slice.len; omega)
  unfold newlineSplit
  simp only [hidx]
  rw [if_neg hne]
  by_cases hi : i = 0
  · subst hi
    refine ⟨.of [], ?_, by simp, ?_, ?_, fun _ => rfl⟩
    · simp
    · intro hs
      have : cr = [] := by simpa using hs
      simp [this, Slice.bytes]
    · intro _
      simp [Slice.bytes]
  · rw [if_neg (by omega), if_pos (by omega)]
    have hslice : data.slice 0 (i : Int) = some (.of (data.bytes.take i)) := by
      rw [hd]
      simp only [Slice.slice, Slice.bytes_of, Slice.len_of]
      rw [if_pos ⟨le_refl 0, by omega, by omega⟩]
      simp
    rw [hslice]
    refine ⟨bytesTrimSuffix (.of (data.bytes.take i)) cr, rfl,
      bytesTrimSuffix_ne_nil cr (by simp), ?_, ?_, fun h => absurd h hi⟩
    · intro hs
      rw [bytesTrimSuffix_bytes, Slice.bytes_of, if_pos hs]
      exact take_append_suffix hs
    · intro hs
      rw [bytesTrimSuffix_bytes, Slice.bytes_of, if_neg hs]

/-- C6 on the buffers `"a\r\nb"` (first newline at offset 2, one carriage return
stripped) and `"\n"` (offset 0, empty non-nil token, advance 1). -/
theorem newlineSplit_at_first_newline_witness :
    (∃ token, newlineSplit [10] [13] false (.of [97, 13, 10, 98]) false =
        some ⟨((2 : Nat) : Int) + (([10] : List Byte).length : Int), token, none⟩ ∧
      token ≠ .nil ∧
      ([13] <:+ (Slice.of [97, 13, 10, 98]).bytes.take 2 →
        token.bytes ++ [13] = (Slice.of [97, 13, 10, 98]).bytes.take 2) ∧
      (¬ [13] <:+ (Slice.of [97, 13, 10, 98]).bytes.take 2 →
        token.bytes = (Slice.of [97, 13, 10, 98]).bytes.take 2) ∧
      (2 = 0 → token = .of [])) ∧
    (∃ token, newlineSplit [10] [13] true (.of [10]) true =
        some ⟨((0 : Nat) : Int) + (([10] : List Byte).length : Int), token, none⟩ ∧
      token ≠ .nil ∧
      ([13] <:+ (Slice.of [10]).bytes.take 0 →
        token.bytes ++ [13] = (Slice.of [10]).bytes.take 0) ∧
      (¬ [13] <:+ (Slice.of [10]).bytes.take 0 → token.bytes = (Slice.of [10]).bytes.take 0) ∧
      (0 = 0 → token = .of [])) :=
  ⟨newlineSplit_at_first_newline [10] [13] (by decide) false (.of [97, 13, 10, 98]) false 2
      (firstIndex_some (by decide : firstIndex [10] [97, 13, 10, 98] = some 2)).2.1
      (firstIndex_some (by decide : firstIndex [10] [97, 13, 10, 98] = some 2)).2.2,
   newlineSplit_at_first_newline [10] [13] (by decide) true (.of [10]) true 0
      (firstIndex_some (by decide : firstIndex [10] [10] = some 0)).2.1
      (firstIndex_some (by decide : firstIndex [10] [10] = some 0)).2.2⟩

/-- C7. On a buffer with no occurrence of the encoded newline (which is then non-empty,
the empty sequence occurring at offset 0 of every buffer) the result is
`(len(buffer), buffer)` when the buffer is non-empty, end-of-stream is true and
`flushAtEOF` is true, and `(0, nil)` in every other case; a token is emitted exactly in
the first case, and for a non-nil buffer the result is `(len(buffer), buffer)` exactly in
the first case (for the nil buffer the two answers are the same value `(0, nil)`). -/
theorem newlineSplit_without_newline (nl cr : List Byte) (flushAtEOF : Bool) (data : Slice)
    (atEOF : Bool) (hno : ∀ j, ¬ nl <+: data.bytes.drop j) :
    (data.len ≠ 0 ∧ atEOF = true ∧ flushAtEOF = true →
      newlineSplit nl cr flushAtEOF data atEOF = some ⟨data.len, data, none⟩) ∧
    (¬ (data.len ≠ 0 ∧ atEOF = true ∧ flushAtEOF = true) →
      newlineSplit nl cr flushAtEOF data atEOF = some ⟨0, .nil, none⟩) ∧
    ((∃ r, newlineSplit nl cr flushAtEOF data atEOF = some r ∧ r.token ≠ .nil) ↔
      (data.len ≠ 0 ∧ atEOF = true ∧ flushAtEOF = true)) ∧
    (data ≠ .nil →
      (newlineSplit nl cr flushAtEOF data atEOF = some ⟨data.len, data, none⟩ ↔
        (data.len ≠ 0 ∧ atEOF = true ∧ flushAtEOF = true))) := by
  have hidx : bytesIndex data.bytes nl = -1 := by
    unfold bytesIndex
    cases hf : firstIndex nl data.bytes with
    | none => rfl
    | some i => exact absurd (firstIndex_some hf).2.1 (hno i)
  have hyes : data.len ≠ 0 ∧ atEOF = true ∧ flushAtEOF = true →
      newlineSplit nl cr flushAtEOF data atEOF = some ⟨data.len, data, none⟩ := by
    rintro ⟨h1, h2, h3⟩
    unfold newlineSplit
    simp only [hidx]
    rw [if_neg (fun hc => h1 hc.2), if_neg (by omega), if_neg (by omega), if_pos ⟨h2, h3⟩]
  have hnot : ¬ (data.len ≠ 0 ∧ atEOF = true ∧ flushAtEOF = true) →
      newlineSplit nl cr flushAtEOF data atEOF = some ⟨0, .nil, none⟩ := by
    intro hc
    unfold newlineSplit
    simp only [hidx]
    by_cases h0 : atEOF = true ∧ data.len = 0
    · rw [if_pos h0]
      rfl
    · rw [if_neg h0, if_neg (by omega), if_neg (by omega)]
      by_cases hfl : atEOF = true ∧ flushAtEOF = true
      · exact absurd ⟨fun hz => h0 ⟨hfl.1, hz⟩, hfl.1, hfl.2⟩ hc
      · rw [if_neg hfl]
        rfl
  refine ⟨hyes, hnot, ?_, ?_⟩
  · constructor
    · rintro ⟨r, hr, htok⟩
      by_contra hc
      rw [hnot hc] at hr
      simp only [Option.some.injEq] at hr
      subst hr
      exact htok rfl
    · intro hc
      refine ⟨_, hyes hc, ?_⟩
      intro hn
      simp only at hn
      rw [hn] at hc
      exact hc.1 rfl
  · intro hd
    constructor
    · intro hr
      by_contra hc
      rw [hnot hc] at hr
      simp only [Option.some.injEq, SplitResult.mk.injEq] at hr
      exact hd hr.2.1.symm
    · exact hyes

/-- C7 on the buffer `"partial"` at end-of-stream: `(7, "partial")` with `flushAtEOF`,
`(0, nil)` without. -/
theorem newlineSplit_without_newline_witness :
    newlineSplit [10] [13] true (.of [112, 97, 114, 116, 105, 97, 108]) true =
      some ⟨(Slice.of [112, 97, 114, 116, 105, 97, 108]).len,
        .of [112, 97, 114, 116, 105, 97, 108], none⟩ ∧
    newlineSplit [10] [13] false (.of [112, 97, 114, 116, 105, 97, 108]) true =
      some ⟨0, .nil, none⟩ ∧
    (Slice.of [112, 97, 114, 116, 105, 97, 108]).len = 7 :=
  ⟨(newlineSplit_without_newline [10] [13] true (.of [112, 97, 114, 116, 105, 97, 108]) true
      (firstIndex_none (by decide : firstIndex [10] [112, 97, 114, 116, 105, 97, 108] = none))).1
      ⟨by decide, rfl, rfl⟩,
   (newlineSplit_without_newline [10] [13] false (.of [112, 97, 114, 116, 105, 97, 108]) true
      (firstIndex_none (by decide : firstIndex [10] [112, 97, 114, 116, 105, 97, 108] = none))).2.1
      (by decide),
   by decide⟩

/-! ## Runs of `NewlineSplitFunc` on newline-terminated lines -/

/-- In `l ++ "\n" ++ rest`, with no newline byte in `l`, the first newline is at `len(l)`. -/
theorem firstIndex_after_line (l rest : List Byte) (h10 : (10 : Byte) ∉ l) :
    firstIndex [10] (l ++ 10 :: rest) = some l.length := by
  apply firstIndex_of_first
  · rw [List.drop_left]
    exact ⟨rest, rfl⟩
  · intro j hj hc
    rw [List.drop_append_of_le_length (le_of_lt hj), List.drop_eq_getElem_cons hj] at hc
    obtain ⟨t, ht⟩ := hc
    simp only [List.singleton_append, List.cons_append, List.cons.injEq] at ht
    exact h10 (ht.1 ▸ List.getElem_mem hj)

/-- The call on `l ++ "\n" ++ rest`, where `l` has no newline byte and does not end with a
carriage return, emits `l` and consumes it with the newline. -/
theorem newlineSplit_line (l rest : List Byte) (h10 : (10 : Byte) ∉ l) (h13 : ¬ [13] <:+ l)
    (flushAtEOF atEOF : Bool) :
    newlineSplit [10] [13] flushAtEOF (.of (l ++ 10 :: rest)) atEOF = some (lineStep l) := by
  have hidx : bytesIndex (l ++ 10 :: rest) [10] = (l.length : Int) := by
    unfold bytesIndex
    rw [firstIndex_after_line l rest h10]
  unfold newlineSplit
  simp only [Slice.bytes_of, hidx, Slice.len_of, List.length_append, List.length_cons]
  rw [if_neg (by omega)]
  by_cases hl : l = []
  · subst hl
    simp [lineStep]
  · have hpos : 0 < l.length := List.length_pos.mpr hl
    rw [if_neg (by omega), if_pos (by omega)]
    have hslice : (Slice.of (l ++ 10 :: rest)).slice 0 (l.length : Int) = some (.of l) := by
      simp only [Slice.slice, Slice.len_of, List.length_append, List.length_cons]
      rw [if_pos ⟨le_refl 0, by omega, by omega⟩]
      simp
    rw [hslice]
    have htrim : bytesTrimSuffix (.of l) [13] = .of l := by
      unfold bytesTrimSuffix
      rw [Slice.bytes_of, if_neg (fun hc => h13 (List.isSuffixOf_iff_suffix.mp hc))]
    simp [htrim, lineStep]

/-- On the empty buffer the newline strategy asks for more data. -/
theorem newlineSplit_empty (flushAtEOF atEOF : Bool) :
    newlineSplit [10] [13] flushAtEOF (.of []) atEOF = some needMoreData := by
  cases atEOF <;> cases flushAtEOF <;> decide

/-- The run on newline-terminated lines emits the lines in order and empties the buffer. -/
theorem scanLoop_lines (flushAtEOF atEOF : Bool) : ∀ (lines : List (List Byte)) (fuel : Nat),
    (∀ l ∈ lines, (10 : Byte) ∉ l) → (∀ l ∈ lines, ¬ [13] <:+ l) → lines.length < fuel →
    scanLoop (newlineSplit [10] [13] flushAtEOF) atEOF fuel (.of (joinLines lines)) =
      some (lines.map lineStep, .of [])
  | _, 0, _, _, h => absurd h (Nat.not_lt_zero _)
  | [], fuel + 1, _, _, _ => by
    have hj : joinLines [] = [] := rfl
    rw [hj, scanLoop_succ _ _ _ _ _ (newlineSplit_empty flushAtEOF atEOF), if_pos ⟨rfl, rfl⟩]
    rfl
  | l :: ls, fuel + 1, h10, h13, h => by
    have hj : joinLines (l :: ls) = l ++ 10 :: joinLines ls := by
      simp [joinLines]
    have hcall := newlineSplit_line l (joinLines ls) (h10 l (List.mem_cons_self _ _))
      (h13 l (List.mem_cons_self _ _)) flushAtEOF atEOF
    have hrec := scanLoop_lines flushAtEOF atEOF ls fuel
      (fun x hx => h10 x (List.mem_cons_of_mem _ hx))
      (fun x hx => h13 x (List.mem_cons_of_mem _ hx))
      (by simpa using h)
    have hdrop : (Slice.of (l ++ 10 :: joinLines ls)).dropFront (l.length + 1) =
        .of (joinLines ls) := by
      simp only [Slice.dropFront, Slice.of.injEq]
      have : l ++ 10 :: joinLines ls = (l ++ [10]) ++ joinLines ls := by simp
      rw [this]
      exact List.drop_left' (by simp)
    have hadv : (lineStep l).advance.toNat = l.length + 1 := by
      simp only [lineStep]
      omega
    rw [hj, scanLoop_succ _ _ _ _ _ hcall, hadv, hdrop, hrec]
    have h1 : ¬ ((lineStep l).advance = 0 ∧ (lineStep l).token = .nil) := by
      simp [lineStep]
    have h2 : ¬ ((lineStep l).advance < 0 ∨
        (Slice.of (l ++ 10 :: joinLines ls)).len < (lineStep l).advance) := by
      simp only [lineStep, Slice.len_of, List.length_append, List.length_cons]
      omega
    rw [if_neg h1, if_neg h2]
    rfl

/-- The advances of the line steps add up to the length of the buffer. -/
theorem totalAdvance_lines : ∀ (lines : List (List Byte)),
    totalAdvance (lines.map lineStep) = ((joinLines lines).length : Int)
  | [] => rfl
  | l :: ls => by
    have ih := totalAdvance_lines ls
    simp only [totalAdvance, joinLines, lineStep, List.map_cons, List.map_map, List.sum_cons,
      List.flatten_cons, List.length_append, List.length_cons, List.length_nil] at ih ⊢
    rw [ih]
    push_cast
    ring

/-- C8. With newline `[0x0A]` and carriage return `[0x0D]`, for lines `l_1..l_k` none of
which contains the byte `0x0A` or ends with `0x0D`, on the buffer
`l_1 ++ "\n" ++ ... ++ l_k ++ "\n"`, for either end-of-stream value and either flush
policy, the successive calls (the advance dropped each time) emit exactly the non-nil
tokens `l_1, ..., l_k` in order, each consuming the line and its newline, then answer
`(0, nil)` on the emptied buffer; the advances add up to the buffer length. -/
theorem newlineSplit_run_emits_lines (lines : List (List Byte)) (flushAtEOF atEOF : Bool)
    (h10 : ∀ l ∈ lines, (10 : Byte) ∉ l) (h13 : ∀ l ∈ lines, ¬ [13] <:+ l) (fuel : Nat)
    (hfuel : lines.length < fuel) :
    scanLoop (newlineSplit [10] [13] flushAtEOF) atEOF fuel (.of (joinLines lines)) =
      some (lines.map lineStep, .of []) ∧
    stepTokens (lines.map lineStep) = lines.map Slice.of ∧
    totalAdvance (lines.map lineStep) = (Slice.of (joinLines lines)).len := by
  refine ⟨scanLoop_lines flushAtEOF atEOF lines fuel h10 h13 hfuel, ?_, totalAdvance_lines lines⟩
  simp [stepTokens, lineStep]

/-- C8 on the buffer `"a\nb\n"`: tokens `"a"` then `"b"`, total advance 4. -/
theorem newlineSplit_run_emits_lines_witness :
    (scanLoop (newlineSplit [10] [13] false) false 3 (.of (joinLines [[97], [98]])) =
      some ([[97], [98]].map lineStep, .of []) ∧
    stepTokens ([[97], [98]].map lineStep) = [[97], [98]].map Slice.of ∧
    totalAdvance ([[97], [98]].map lineStep) = (Slice.of (joinLines [[97], [98]])).len) ∧
    joinLines [[97], [98]] = [97, 10, 98, 10] ∧
    (Slice.of (joinLines [[97], [98]])).len = 4 :=
  ⟨newlineSplit_run_emits_lines [[97], [98]] false false (by decide) (by decide) 3 (by decide),
   by decide, by decide⟩

/-! ## `LineStartSplitFunc` and `LineEndSplitFunc` call by call -/

/-- C9. For `LineStartSplitFunc` and `LineEndSplitFunc` alike, on a buffer in which the
pattern has no match the result is `(len(buffer), buffer, nil)` when the buffer is
non-empty, end-of-stream is true and `flushAtEOF` is true, and `(0, nil, nil)` in every
other case; a token is emitted exactly in the first case, and for a non-nil buffer the
result is `(len(buffer), buffer, nil)` exactly in the first case (for the nil buffer the
two answers are the same value `(0, nil, nil)`). -/
theorem split_without_match (re : Regexp) (flushAtEOF : Bool) (data : Slice) (atEOF : Bool)
    (hno : re data.bytes = none) :
    (data.len ≠ 0 ∧ atEOF = true ∧ flushAtEOF = true →
      LineStartSplitFunc re flushAtEOF data atEOF = some ⟨data.len, data, none⟩ ∧
      LineEndSplitFunc re flushAtEOF data atEOF = some ⟨data.len, data, none⟩) ∧
    (¬ (data.len ≠ 0 ∧ atEOF = true ∧ flushAtEOF = true) →
      LineStartSplitFunc re flushAtEOF data atEOF = some ⟨0, .nil, none⟩ ∧
      LineEndSplitFunc re flushAtEOF data atEOF = some ⟨0, .nil, none⟩) ∧
    ((∃ r, LineStartSplitFunc re flushAtEOF data atEOF = some r ∧ r.token ≠ .nil) ↔
      (data.len ≠ 0 ∧ atEOF = true ∧ flushAtEOF = true)) ∧
    ((∃ r, LineEndSplitFunc re flushAtEOF data atEOF = some r ∧ r.token ≠ .nil) ↔
      (data.len ≠ 0 ∧ atEOF = true ∧ flushAtEOF = true)) ∧
    (data ≠ .nil →
      ((LineStartSplitFunc re flushAtEOF data atEOF = some ⟨data.len, data, none⟩ ↔
          (data.len ≠ 0 ∧ atEOF = true ∧ flushAtEOF = true)) ∧
        (LineEndSplitFunc re flushAtEOF data atEOF = some ⟨data.len, data, none⟩ ↔
          (data.len ≠ 0 ∧ atEOF = true ∧ flushAtEOF = true)))) := by
  have hstart : LineStartSplitFunc re flushAtEOF data atEOF =
      if data.len ≠ 0 ∧ atEOF = true ∧ flushAtEOF = true then some ⟨data.len, data, none⟩
      else some needMoreData := by
    unfold LineStartSplitFunc
    rw [hno]
  have hend : LineEndSplitFunc re flushAtEOF data atEOF =
      if data.len ≠ 0 ∧ atEOF = true ∧ flushAtEOF = true then some ⟨data.len, data, none⟩
      else some needMoreData := by
    unfold LineEndSplitFunc
    rw [hno]
  have hnonnil : data.len ≠ 0 → data ≠ .nil := by
    intro h hc
    rw [hc] at h
    exact h rfl
  rw [hstart, hend]
  by_cases hc : data.len ≠ 0 ∧ atEOF = true ∧ flushAtEOF = true
  · rw [if_pos hc]
    refine ⟨fun _ => ⟨rfl, rfl⟩, fun h => absurd hc h, ?_, ?_, ?_⟩
    · exact ⟨fun _ => hc, fun _ => ⟨_, rfl, hnonnil hc.1⟩⟩
    · exact ⟨fun _ => hc, fun _ => ⟨_, rfl, hnonnil hc.1⟩⟩
    · exact fun _ => ⟨⟨fun _ => hc, fun _ => rfl⟩, ⟨fun _ => hc, fun _ => rfl⟩⟩
  · rw [if_neg hc]
    have hdiff : data ≠ .nil →
        ¬ (some needMoreData = some (SplitResult.mk data.len data none)) := by
      intro hd heq
      simp only [needMoreData, Option.some.injEq, SplitResult.mk.injEq] at heq
      exact hd heq.2.1.symm
    refine ⟨fun h => absurd h hc, fun _ => ⟨rfl, rfl⟩, ?_, ?_,
      fun hd => ⟨⟨fun h => absurd h (hdiff hd), fun h => absurd h hc⟩,
        ⟨fun h => absurd h (hdiff hd), fun h => absurd h hc⟩⟩⟩
    · constructor
      · rintro ⟨r, hr, htok⟩
        simp only [Option.some.injEq] at hr
        subst hr
        exact absurd rfl htok
      · intro h
        exact absurd h hc
    · constructor
      · rintro ⟨r, hr, htok⟩
        simp only [Option.some.injEq] at hr
        subst hr
        exact absurd rfl htok
      · intro h
        exact absurd h hc

/-- C9 on the buffer `"abc"`, which has no `'L'`: flushed whole at end-of-stream with
`flushAtEOF`, held before end-of-stream. -/
theorem split_without_match_witness :
    (LineStartSplitFunc (findByte 76) true (.of [97, 98, 99]) true =
        some ⟨(Slice.of [97, 98, 99]).len, .of [97, 98, 99], none⟩ ∧
      LineEndSplitFunc (findByte 76) true (.of [97, 98, 99]) true =
        some ⟨(Slice.of [97, 98, 99]).len, .of [97, 98, 99], none⟩) ∧
    (LineStartSplitFunc (findByte 76) true (.of [97, 98, 99]) false = some ⟨0, .nil, none⟩ ∧
      LineEndSplitFunc (findByte 76) true (.of [97, 98, 99]) false = some ⟨0, .nil, none⟩) :=
  ⟨(split_without_match (findByte 76) true (.of [97, 98, 99]) true (by decide)).1
      ⟨by decide, rfl, rfl⟩,
   (split_without_match (findByte 76) true (.of [97, 98, 99]) false (by decide)).2.1
      (by decide)⟩

/-- C10. For `LineStartSplitFunc`, when the first match of the pattern is the span
`[s, e]` of the buffer with `s > 0`, for every end-of-stream flag and flush policy the
result is `advance = s` and the non-nil token `buffer[0:s]`, as it is, whatever its bytes
(all whitespace included). The matched marker `buffer[s:e]` is not consumed: it is at
offset 0 of the buffer that is left after dropping `advance` bytes. -/
theorem LineStartSplitFunc_leading_data (re : Regexp) (flushAtEOF : Bool) (data : Slice)
    (atEOF : Bool) (s e : Int) (hm : re data.bytes = some (s, e)) (hs : 0 < s) (hse : s ≤ e)
    (he : e ≤ data.len) :
    ∃ token marker, LineStartSplitFunc re flushAtEOF data atEOF = some ⟨s, token, none⟩ ∧
      data.slice 0 s = some token ∧ token ≠ .nil ∧ token.bytes = data.bytes.take s.toNat ∧
      data.slice s e = some marker ∧ marker.bytes <+: (data.dropFront s.toNat).bytes := by
  obtain ⟨token, htok⟩ := data.slice_of_bounds 0 s (le_refl 0) (le_of_lt hs) (by omega)
  obtain ⟨marker, hmark⟩ := data.slice_of_bounds s e (le_of_lt hs) hse he
  have hne : s ≠ 0 := by omega
  have htn := leading_token_ne_nil hne htok
  refine ⟨token, marker, ?_, htok, htn, (Slice.slice_zero_bytes htok).1, hmark, ?_⟩
  · unfold LineStartSplitFunc
    simp only [hm]
    rw [if_pos hne, htok]
    simp only
    rw [if_pos htn]
  · obtain ⟨_, _, _, hb, _⟩ := Slice.slice_eq_some hmark
    rw [hb, Slice.dropFront_bytes]
    exact List.take_prefix _ _

/-- C10 on the buffer `"  LOG"` with the matcher for `'L'`: the two leading blanks are
emitted untrimmed with `advance = 2`, and `'L'` starts the buffer that is left. -/
theorem LineStartSplitFunc_leading_data_witness :
    (∃ token marker, LineStartSplitFunc (findByte 76) true (.of [32, 32, 76, 79, 71]) true =
        some ⟨2, token, none⟩ ∧
      (Slice.of [32, 32, 76, 79, 71]).slice 0 2 = some token ∧ token ≠ .nil ∧
      token.bytes = (Slice.of [32, 32, 76, 79, 71]).bytes.take (2 : Int).toNat ∧
      (Slice.of [32, 32, 76, 79, 71]).slice 2 3 = some marker ∧
      marker.bytes <+: ((Slice.of [32, 32, 76, 79, 71]).dropFront (2 : Int).toNat).bytes) ∧
    (Slice.of [32, 32, 76, 79, 71]).slice 0 2 = some (.of [32, 32]) ∧
    (Slice.of [32, 32, 76, 79, 71]).dropFront (2 : Int).toNat = .of [76, 79, 71] :=
  ⟨LineStartSplitFunc_leading_data (findByte 76) true (.of [32, 32, 76, 79, 71]) true 2 3
      (by decide) (by decide) (by decide) (by decide),
   by decide, by decide⟩

/-! ## `LineStartSplitFunc` when the first match starts the buffer -/

/-- C11 (defect of the code). With the pattern `^LOG:` on the buffer `"LOG:"`, whose first
match starts at offset 0 and ends at `len(buffer) = 4`, at end-of-stream with
`flushAtEOF = true` the call answers `(0, nil, nil)`: the test `firstMatchEnd == len(data)`
returns before the flush test is reached, and the buffer is not flushed. -/
theorem LineStartSplitFunc_whole_buffer_match_not_flushed :
    logStartRegexp [76, 79, 71, 58] = some (0, 4) ∧
    (Slice.of [76, 79, 71, 58]).len = 4 ∧
    LineStartSplitFunc logStartRegexp true (.of [76, 79, 71, 58]) true =
      some ⟨0, .nil, none⟩ ∧
    LineStartSplitFunc logStartRegexp true (.of [76, 79, 71, 58]) true ≠
      some ⟨4, .of [76, 79, 71, 58], none⟩ := by
  decide

/-- C12. For `LineStartSplitFunc` when not flushing (end-of-stream false, or `flushAtEOF`
false), on a buffer whose first match starts at offset 0 and ends at `e < len(buffer)`:
the slice `buffer[e+1:]` exists; when the pattern has no match in it the result is
`(0, nil)`; when its first match there starts at `m` the result is
`advance = e + 1 + m` and `token = buffer[0 : e + 1 + m]`. -/
theorem LineStartSplitFunc_second_match (re : Regexp) (flushAtEOF : Bool) (data : Slice)
    (atEOF : Bool) (e : Int) (hm : re data.bytes = some (0, e)) (he0 : 0 ≤ e)
    (he : e < data.len) (hnf : ¬ (atEOF = true ∧ flushAtEOF = true)) :
    ∃ rest, data.slice (e + 1) data.len = some rest ∧
      (re rest.bytes = none →
        LineStartSplitFunc re flushAtEOF data atEOF = some ⟨0, .nil, none⟩) ∧
      (∀ m mEnd, re rest.bytes = some (m, mEnd) → 0 ≤ m → m ≤ rest.len →
        ∃ token, LineStartSplitFunc re flushAtEOF data atEOF =
            some ⟨e + 1 + m, token, none⟩ ∧
          data.slice 0 (e + 1 + m) = some token ∧
          token.bytes = data.bytes.take (e + 1 + m).toNat) := by
  obtain ⟨rest, hrest⟩ := data.slice_of_bounds (e + 1) data.len (by omega) (by omega)
    (le_refl _)
  have hcall : LineStartSplitFunc re flushAtEOF data atEOF =
      lineStartFromFirstMatch re flushAtEOF data atEOF 0 e := by
    unfold LineStartSplitFunc
    simp only [hm]
    rw [if_neg (by simp)]
  have hbody : lineStartFromFirstMatch re flushAtEOF data atEOF 0 e =
      match re rest.bytes with
      | none => some needMoreData
      | some (secondLoc0, _) =>
        match data.slice 0 (secondLoc0 + (e + 1)) with
        | none => none
        | some token => some ⟨secondLoc0 + (e + 1), token, none⟩ := by
    unfold lineStartFromFirstMatch
    simp only
    rw [if_neg (by omega), if_neg hnf, hrest]
  refine ⟨rest, hrest, ?_, ?_⟩
  · intro hnone
    rw [hcall, hbody, hnone]
    rfl
  · intro m mEnd hsome hm0 hmlen
    obtain ⟨_, _, _, hb, _⟩ := Slice.slice_eq_some hrest
    have hdl : data.len = (data.bytes.length : Int) := rfl
    have hrl : rest.len = data.len - (e + 1) := by
      rw [hdl] at hb he ⊢
      unfold Slice.len
      rw [hb]
      simp only [List.length_take, List.length_drop]
      omega
    obtain ⟨token, htok⟩ := data.slice_of_bounds 0 (e + 1 + m) (le_refl 0) (by omega)
      (by omega)
    refine ⟨token, ?_, htok, (Slice.slice_zero_bytes htok).1⟩
    rw [hcall, hbody, hsome]
    simp only
    rw [add_comm m (e + 1), htok]

/-- C12 with the pattern `^LOG:` on `"LOG:a\nLOG:b\nLOG:c"` before end-of-stream: the
first call emits `"LOG:a\n"` with `advance = 6`, and the run emits `"LOG:a\n"`, then
`"LOG:b\n"`, then answers `(0, nil)` and holds `"LOG:c"`. -/
theorem LineStartSplitFunc_second_match_witness :
    (∃ rest, (Slice.of [76, 79, 71, 58, 97, 10, 76, 79, 71, 58, 98, 10, 76, 79, 71, 58, 99]).slice
        (4 + 1) (Slice.of [76, 79, 71, 58, 97, 10, 76, 79, 71, 58, 98, 10, 76, 79, 71, 58, 99]).len
          = some rest ∧
      (logStartRegexp rest.bytes = none →
        LineStartSplitFunc logStartRegexp true
          (.of [76, 79, 71, 58, 97, 10, 76, 79, 71, 58, 98, 10, 76, 79, 71, 58, 99]) false =
          some ⟨0, .nil, none⟩) ∧
      (∀ m mEnd, logStartRegexp rest.bytes = some (m, mEnd) → 0 ≤ m → m ≤ rest.len →
        ∃ token, LineStartSplitFunc logStartRegexp true
            (.of [76, 79, 71, 58, 97, 10, 76, 79, 71, 58, 98, 10, 76, 79, 71, 58, 99]) false =
            some ⟨4 + 1 + m, token, none⟩ ∧
          (Slice.of [76, 79, 71, 58, 97, 10, 76, 79, 71, 58, 98, 10, 76, 79, 71, 58, 99]).slice
            0 (4 + 1 + m) = some token ∧
          token.bytes =
            (Slice.of [76, 79, 71, 58, 97, 10, 76, 79, 71, 58, 98, 10, 76, 79, 71, 58, 99]).bytes.take
              (4 + 1 + m).toNat)) ∧
    logStartRegexp [10, 76, 79, 71, 58, 98, 10, 76, 79, 71, 58, 99] = some (1, 5) ∧
    scanLoop (LineStartSplitFunc logStartRegexp true) false 3
        (.of [76, 79, 71, 58, 97, 10, 76, 79, 71, 58, 98, 10, 76, 79, 71, 58, 99]) =
      some ([⟨6, .of [76, 79, 71, 58, 97, 10], none⟩, ⟨6, .of [76, 79, 71, 58, 98, 10], none⟩],
        .of [76, 79, 71, 58, 99]) :=
  ⟨LineStartSplitFunc_second_match logStartRegexp true
      (.of [76, 79, 71, 58, 97, 10, 76, 79, 71, 58, 98, 10, 76, 79, 71, 58, 99]) false 4
      (by decide) (by decide) (by decide) (by decide),
   by decide, by decide⟩

/-! ## `LineEndSplitFunc` when the pattern matches -/

/-- C13. For `LineEndSplitFunc`, on a buffer whose first match is the span `[s, e]`, unless
`e = len(buffer) - 1` with end-of-stream false, the result is `advance = e` and
`token = buffer[0:e]`, whatever `flushAtEOF`; the token ends with the matched bytes
`buffer[s:e]`. -/
theorem LineEndSplitFunc_at_match (re : Regexp) (flushAtEOF : Bool) (data : Slice)
    (atEOF : Bool) (s e : Int) (hm : re data.bytes = some (s, e)) (hs : 0 ≤ s) (hse : s ≤ e)
    (he : e ≤ data.len) (hexc : ¬ (e = data.len - 1 ∧ atEOF = false)) :
    ∃ token matched, LineEndSplitFunc re flushAtEOF data atEOF = some ⟨e, token, none⟩ ∧
      data.slice 0 e = some token ∧ token.bytes = data.bytes.take e.toNat ∧
      data.slice s e = some matched ∧ matched.bytes <:+ token.bytes := by
  obtain ⟨token, htok⟩ := data.slice_of_bounds 0 e (le_refl 0) (by omega) he
  obtain ⟨matched, hmat⟩ := data.slice_of_bounds s e hs hse he
  obtain ⟨htb, _⟩ := Slice.slice_zero_bytes htok
  refine ⟨token, matched, ?_, htok, htb, hmat, ?_⟩
  · unfold LineEndSplitFunc
    simp only [hm]
    rw [if_neg hexc, htok]
  · obtain ⟨_, _, _, hb, _⟩ := Slice.slice_eq_some hmat
    rw [hb, htb, ← List.drop_take]
    exact List.drop_suffix _ _

/-- C13 with the pattern `;$` on `"a;\nb;\n"` at end-of-stream: `advance = 2`, token `"a;"`,
which ends with the matched `";"`. -/
theorem LineEndSplitFunc_at_match_witness :
    (∃ token matched, LineEndSplitFunc semicolonEndRegexp false
        (.of [97, 59, 10, 98, 59, 10]) true = some ⟨2, token, none⟩ ∧
      (Slice.of [97, 59, 10, 98, 59, 10]).slice 0 2 = some token ∧
      token.bytes = (Slice.of [97, 59, 10, 98, 59, 10]).bytes.take (2 : Int).toNat ∧
      (Slice.of [97, 59, 10, 98, 59, 10]).slice 1 2 = some matched ∧
      matched.bytes <:+ token.bytes) ∧
    (Slice.of [97, 59, 10, 98, 59, 10]).slice 0 2 = some (.of [97, 59]) :=
  ⟨LineEndSplitFunc_at_match semicolonEndRegexp false (.of [97, 59, 10, 98, 59, 10]) true 1 2
      (by decide) (by decide) (by decide) (by decide) (by decide),
   by decide⟩

/-! ## `LineEndSplitFunc` with the pattern `;$` on records ended by `";\n"` -/

/-- Without a `';'` the pattern `;$` has no match. -/
theorem semicolonEndRegexp_none : ∀ (p : List Byte), (59 : Byte) ∉ p →
    semicolonEndRegexp p = none
  | [], _ => rfl
  | c :: p, h => by
    have hc : c ≠ 59 := fun hc => h (hc ▸ List.mem_cons_self _ _)
    have ih := semicolonEndRegexp_none p (fun hp => h (List.mem_cons_of_mem _ hp))
    unfold semicolonEndRegexp
    rw [if_neg (fun hcond => hc hcond.1), ih]

/-- After bytes without `';'`, a `';'` followed by a newline is the first match of `;$`. -/
theorem semicolonEndRegexp_record : ∀ (p rest : List Byte), (59 : Byte) ∉ p →
    semicolonEndRegexp (p ++ 59 :: 10 :: rest) = some ((p.length : Int), (p.length : Int) + 1)
  | [], rest, _ => by
    simp [semicolonEndRegexp]
  | c :: p, rest, h => by
    have hc : c ≠ 59 := fun hc => h (hc ▸ List.mem_cons_self _ _)
    have ih := semicolonEndRegexp_record p rest (fun hp => h (List.mem_cons_of_mem _ hp))
    rw [List.cons_append, semicolonEndRegexp, if_neg (fun hcond => hc hcond.1), ih]
    simp only [List.length_cons, Nat.cast_add, Nat.cast_one]

/-- At end-of-stream the call on `p ++ ";\n" ++ rest`, with no `';'` in `p`, emits
`p ++ ";"` and consumes nothing more: the newline stays in the buffer. -/
theorem LineEndSplitFunc_record (flushAtEOF : Bool) (p rest : List Byte)
    (h : (59 : Byte) ∉ p) :
    LineEndSplitFunc semicolonEndRegexp flushAtEOF (.of (p ++ 59 :: 10 :: rest)) true =
      some (chunkStep (p ++ [59])) := by
  unfold LineEndSplitFunc
  simp only [Slice.bytes_of, semicolonEndRegexp_record p rest h]
  rw [if_neg (by simp)]
  have hslice : (Slice.of (p ++ 59 :: 10 :: rest)).slice 0 ((p.length : Int) + 1) =
      some (.of (p ++ [59])) := by
    simp only [Slice.slice, Slice.len_of, List.length_append, List.length_cons]
    rw [if_pos ⟨le_refl 0, by omega, by omega⟩]
    have h1 : ((p.length : Int) + 1).toNat = (p ++ [59]).length := by
      simp only [List.length_append, List.length_cons, List.length_nil]
      omega
    have h2 : p ++ 59 :: 10 :: rest = (p ++ [59]) ++ 10 :: rest := by simp
    simp only [Int.toNat_zero, List.drop_zero, Nat.sub_zero, Option.some.injEq, Slice.of.injEq]
    rw [h1, h2, List.take_left]
  rw [hslice]
  simp [chunkStep]

/-- The read loop stops at once on the empty buffer. -/
theorem scanLoop_LineEnd_empty (re : Regexp) (hre : re [] = none) (flushAtEOF atEOF : Bool)
    (fuel : Nat) :
    scanLoop (LineEndSplitFunc re flushAtEOF) atEOF (fuel + 1) (.of []) = some ([], .of []) := by
  have hr : LineEndSplitFunc re flushAtEOF (.of []) atEOF = some needMoreData := by
    unfold LineEndSplitFunc
    simp only [Slice.bytes_of, hre]
    rw [if_neg (by simp [Slice.len_of])]
  rw [scanLoop_succ _ _ _ _ _ hr, if_pos ⟨rfl, rfl⟩]

/-- At end-of-stream the run of `LineEndSplitFunc` for `;$` on `pre ++ joinRecords rs`. -/
theorem scanLoop_records (flushAtEOF : Bool) : ∀ (rs : List (List Byte)) (pre : List Byte)
    (fuel : Nat), (59 : Byte) ∉ pre → (∀ r ∈ rs, (59 : Byte) ∉ r) → rs.length + 1 < fuel →
    scanLoop (LineEndSplitFunc semicolonEndRegexp flushAtEOF) true fuel
        (.of (pre ++ joinRecords rs)) =
      some ((recordTokens flushAtEOF pre rs).map chunkStep, .of (recordRest flushAtEOF pre rs))
  | [], pre, 0, _, _, h => absurd h (Nat.not_lt_zero _)
  | [], pre, 1, _, _, h => absurd h (by simp)
  | [], pre, fuel + 2, hpre, _, _ => by
    have hj : pre ++ joinRecords [] = pre := by simp [joinRecords]
    have hno := semicolonEndRegexp_none pre hpre
    rw [hj]
    by_cases hp : pre = []
    · subst hp
      rw [scanLoop_LineEnd_empty _ rfl]
      cases flushAtEOF <;> rfl
    · have hpos : 0 < pre.length := List.length_pos.mpr hp
      cases flushAtEOF with
      | false =>
        have hr : LineEndSplitFunc semicolonEndRegexp false (.of pre) true =
            some needMoreData := by
          unfold LineEndSplitFunc
          simp only [Slice.bytes_of, hno]
          rw [if_neg (by simp)]
        rw [scanLoop_succ _ _ _ _ _ hr, if_pos ⟨rfl, rfl⟩]
        simp [recordTokens, recordRest]
      | true =>
        have hr : LineEndSplitFunc semicolonEndRegexp true (.of pre) true =
            some (chunkStep pre) := by
          unfold LineEndSplitFunc
          simp only [Slice.bytes_of, hno]
          rw [if_pos (by simp [Slice.len_of, hp])]
          rfl
        rw [scanLoop_chunkStep _ _ _ _ _ hr (le_refl _)]
        have hd : (Slice.of pre).dropFront pre.length = .of [] := by
          simp [Slice.dropFront]
        rw [hd, scanLoop_LineEnd_empty _ rfl]
        simp [recordTokens, recordRest, hp]
  | r :: rs, pre, 0, _, _, h => absurd h (Nat.not_lt_zero _)
  | r :: rs, pre, fuel + 1, hpre, hrs, h => by
    have hpr : (59 : Byte) ∉ pre ++ r := by
      intro hc
      rcases List.mem_append.mp hc with hc | hc
      · exact hpre hc
      · exact hrs r (List.mem_cons_self _ _) hc
    have hj : pre ++ joinRecords (r :: rs) = (pre ++ r) ++ 59 :: 10 :: joinRecords rs := by
      simp [joinRecords]
    have hr := LineEndSplitFunc_record flushAtEOF (pre ++ r) (joinRecords rs) hpr
    have hd : (Slice.of ((pre ++ r) ++ 59 :: 10 :: joinRecords rs)).dropFront
        (pre ++ r ++ [59]).length = .of ([10] ++ joinRecords rs) := by
      have h2 : (pre ++ r) ++ 59 :: 10 :: joinRecords rs =
          (pre ++ r ++ [59]) ++ ([10] ++ joinRecords rs) := by simp
      simp only [Slice.dropFront, Slice.of.injEq]
      rw [h2, List.drop_left]
    have ih := scanLoop_records flushAtEOF rs [10] fuel (by decide)
      (fun x hx => hrs x (List.mem_cons_of_mem _ hx)) (by simpa using h)
    rw [hj, scanLoop_chunkStep _ _ _ _ _ hr
      (by simp only [Slice.bytes_of, List.length_append, List.length_cons, List.length_nil]; omega),
      hd, ih]
    rfl

/-- After the first record every token starts with the newline left by the record
before it, and the last newline is flushed or held. -/
theorem recordTokens_after_first (flushAtEOF : Bool) : ∀ (rs : List (List Byte)),
    recordTokens flushAtEOF [10] rs =
        rs.map (fun r => 10 :: (r ++ [59])) ++ (if flushAtEOF = true then [[10]] else []) ∧
      recordRest flushAtEOF [10] rs = if flushAtEOF = true then [] else [10]
  | [] => by cases flushAtEOF <;> simp [recordTokens, recordRest]
  | r :: rs => by
    obtain ⟨h1, h2⟩ := recordTokens_after_first flushAtEOF rs
    simp [recordTokens, recordRest, h1, h2]

/-- C14 (as stated, refuted). On the buffer `"a;\nb;\n"` at end-of-stream the run of
`LineEndSplitFunc` for `;$` emits `"a;"` and then `"\nb;"`, not `"b;"`: the newline after
the first match is not consumed and opens the second token. With `flushAtEOF` the last
newline is emitted as a third token. -/
theorem LineEndSplitFunc_second_token_keeps_newline :
    joinRecords [[97], [98]] = [97, 59, 10, 98, 59, 10] ∧
    scanLoop (LineEndSplitFunc semicolonEndRegexp false) true 4
        (.of (joinRecords [[97], [98]])) =
      some ([⟨2, .of [97, 59], none⟩, ⟨3, .of [10, 98, 59], none⟩], .of [10]) ∧
    scanLoop (LineEndSplitFunc semicolonEndRegexp true) true 4
        (.of (joinRecords [[97], [98]])) =
      some ([⟨2, .of [97, 59], none⟩, ⟨3, .of [10, 98, 59], none⟩, ⟨1, .of [10], none⟩],
        .of []) ∧
    stepTokens [⟨2, .of [97, 59], none⟩, ⟨3, .of [10, 98, 59], none⟩] ≠
      [.of [97, 59], .of [98, 59]] ∧
    stepTokens [⟨2, .of [97, 59], none⟩, ⟨3, .of [10, 98, 59], none⟩, ⟨1, .of [10], none⟩] ≠
      [.of [97, 59], .of [98, 59]] := by
  decide

/-- C14 (amended). For `LineEndSplitFunc` with the pattern `;$` compiled multiline, for
records `r_1..r_k` without `';'`, on the buffer `r_1 ++ ";\n" ++ ... ++ r_k ++ ";\n"` at
end-of-stream the successive calls (the advance dropped each time) emit `r_1 ++ ";"` and
then `"\n" ++ r_j ++ ";"` for `j = 2..k`: each token ends with its `';'` and each later
token starts with the newline left by the match before it. The last newline is emitted as
a final token when `flushAtEOF` is set and is held in the buffer otherwise. Every step has
`advance = len(token)`. -/
theorem LineEndSplitFunc_run_on_records (records : List (List Byte)) (flushAtEOF : Bool)
    (h59 : ∀ r ∈ records, (59 : Byte) ∉ r) (fuel : Nat) (hfuel : records.length + 1 < fuel) :
    scanLoop (LineEndSplitFunc semicolonEndRegexp flushAtEOF) true fuel
        (.of (joinRecords records)) =
      some ((recordTokens flushAtEOF [] records).map chunkStep,
        .of (recordRest flushAtEOF [] records)) ∧
    (∀ r rs, records = r :: rs →
      recordTokens flushAtEOF [] records =
          (r ++ [59]) :: (rs.map (fun x => 10 :: (x ++ [59])) ++
            (if flushAtEOF = true then [[10]] else [])) ∧
        recordRest flushAtEOF [] records = if flushAtEOF = true then [] else [10]) ∧
    (records = [] →
      recordTokens flushAtEOF [] records = [] ∧ recordRest flushAtEOF [] records = []) := by
  refine ⟨?_, ?_, ?_⟩
  · have h := scanLoop_records flushAtEOF records [] fuel (by simp) h59 hfuel
    simpa using h
  · intro r rs hrec
    subst hrec
    obtain ⟨h1, h2⟩ := recordTokens_after_first flushAtEOF rs
    simp [recordTokens, recordRest, h1, h2]
  · intro hrec
    subst hrec
    cases flushAtEOF <;> simp [recordTokens, recordRest]

/-- C14 (amended) on the records `"a"`, `"b"`: the buffer `"a;\nb;\n"` gives `"a;"`, then
`"\nb;"`, then `"\n"` when flushing at end-of-stream. -/
theorem LineEndSplitFunc_run_on_records_witness :
    scanLoop (LineEndSplitFunc semicolonEndRegexp true) true 4
        (.of (joinRecords [[97], [98]])) =
      some ((recordTokens true [] [[97], [98]]).map chunkStep,
        .of (recordRest true [] [[97], [98]])) ∧
    recordTokens true [] [[97], [98]] = [[97, 59], [10, 98, 59], [10]] ∧
    recordRest true [] [[97], [98]] = [] :=
  ⟨(LineEndSplitFunc_run_on_records [[97], [98]] true (by decide) 4 (by decide)).1,
   by decide, by decide⟩

/-- C15 (defect of the code). With the pattern `;$` on the buffer `"a;"`, whose first match
`[1, 2]` goes up to the end of the buffer (`2 = len(buffer)`), before end-of-stream the
call emits the token `"a;"` with `advance = 2` instead of answering `(0, nil, nil)`: the
code compares the end of the match with `len(data)-1`, not with `len(data)`. -/
theorem LineEndSplitFunc_emits_at_buffer_end :
    semicolonEndRegexp [97, 59] = some (1, 2) ∧
    (Slice.of [97, 59]).len = 2 ∧
    LineEndSplitFunc semicolonEndRegexp true (.of [97, 59]) false =
      some ⟨2, .of [97, 59], none⟩ ∧
    LineEndSplitFunc semicolonEndRegexp false (.of [97, 59]) false =
      some ⟨2, .of [97, 59], none⟩ ∧
    LineEndSplitFunc semicolonEndRegexp true (.of [97, 59]) false ≠ some ⟨0, .nil, none⟩ := by
  decide

/-! ## `LineStartSplitFunc` at end-of-stream -/

/-- C16 (as stated, refuted). With the pattern `^LOG:` on `"LOG:a\nLOG:b\nLOG:c"` at
end-of-stream with `flushAtEOF = true`, the pattern matches again in `buffer[5:]` (at
offset 6 of the buffer), and the call returns the whole buffer with `advance = 17`, not
the first record `"LOG:a\n"` with `advance = 6`. -/
theorem LineStartSplitFunc_flushes_all_records :
    logStartRegexp [76, 79, 71, 58, 97, 10, 76, 79, 71, 58, 98, 10, 76, 79, 71, 58, 99] =
      some (0, 4) ∧
    logStartRegexp [10, 76, 79, 71, 58, 98, 10, 76, 79, 71, 58, 99] = some (1, 5) ∧
    LineStartSplitFunc logStartRegexp true
        (.of [76, 79, 71, 58, 97, 10, 76, 79, 71, 58, 98, 10, 76, 79, 71, 58, 99]) true =
      some ⟨17, .of [76, 79, 71, 58, 97, 10, 76, 79, 71, 58, 98, 10, 76, 79, 71, 58, 99],
        none⟩ ∧
    LineStartSplitFunc logStartRegexp true
        (.of [76, 79, 71, 58, 97, 10, 76, 79, 71, 58, 98, 10, 76, 79, 71, 58, 99]) true ≠
      some ⟨6, .of [76, 79, 71, 58, 97, 10], none⟩ := by
  decide

/-- C16 (amended). For `LineStartSplitFunc` at end-of-stream with `flushAtEOF = true`, on
a buffer whose first match starts at offset 0 and ends at `e < len(buffer)`, the call
flushes the whole buffer, `advance = len(buffer)` and `token = buffer`, whether or not the
pattern matches again in `buffer[e+1:]`: the flush test comes before the search for a
second match. -/
theorem LineStartSplitFunc_flush_before_second_match (re : Regexp) (data : Slice) (e : Int)
    (hm : re data.bytes = some (0, e)) (he : e < data.len) :
    LineStartSplitFunc re true data true = some ⟨data.len, data, none⟩ := by
  unfold LineStartSplitFunc
  simp only [hm]
  rw [if_neg (by simp)]
  unfold lineStartFromFirstMatch
  simp only
  rw [if_neg (by omega), if_pos (by simp)]

/-- C16 (amended) with the pattern `^LOG:` on `"LOG:a\nLOG:b\nLOG:c"`. -/
theorem LineStartSplitFunc_flush_before_second_match_witness :
    LineStartSplitFunc logStartRegexp true
        (.of [76, 79, 71, 58, 97, 10, 76, 79, 71, 58, 98, 10, 76, 79, 71, 58, 99]) true =
      some ⟨(Slice.of
          [76, 79, 71, 58, 97, 10, 76, 79, 71, 58, 98, 10, 76, 79, 71, 58, 99]).len,
        .of [76, 79, 71, 58, 97, 10, 76, 79, 71, 58, 98, 10, 76, 79, 71, 58, 99], none⟩ :=
  LineStartSplitFunc_flush_before_second_match logStartRegexp
    (.of [76, 79, 71, 58, 97, 10, 76, 79, 71, 58, 98, 10, 76, 79, 71, 58, 99]) 4
    (by decide) (by decide)

/-- C17 (defect of the code). With the pattern `^LOG:` on `"LOG:xLOG:y\nLOG:z"` before
end-of-stream the call emits `"LOG:x"` with `advance = 5 < 16`, although offset 5 is not a
position where the pattern matches in the buffer: the byte before it is `'x'`, not a
newline, and the second match of the pattern in the buffer starts at offset 11. The second
search runs on the slice `data[5:]`, at whose first byte `^` matches. -/
theorem LineStartSplitFunc_boundary_inside_line :
    LineStartSplitFunc logStartRegexp false
        (.of [76, 79, 71, 58, 120, 76, 79, 71, 58, 121, 10, 76, 79, 71, 58, 122]) false =
      some ⟨5, .of [76, 79, 71, 58, 120], none⟩ ∧
    (5 : Int) < (Slice.of
      [76, 79, 71, 58, 120, 76, 79, 71, 58, 121, 10, 76, 79, 71, 58, 122]).len ∧
    [76, 79, 71, 58, 120, 76, 79, 71, 58, 121, 10, 76, 79, 71, 58, 122][4]? = some 120 ∧
    logStartRegexp [76, 79, 71, 58, 120, 76, 79, 71, 58, 121, 10, 76, 79, 71, 58, 122] =
      some (0, 4) ∧
    matchLogStartFrom false [79, 71, 58, 120, 76, 79, 71, 58, 121, 10, 76, 79, 71, 58, 122] =
      some (10, 14) ∧
    logStartRegexp [76, 79, 71, 58, 121, 10, 76, 79, 71, 58, 122] = some (0, 4) := by
  decide

/-! ## The error is nil, and a zero advance carries no token -/

theorem NoSplitFunc_zero_advance (maxLogSize : Int) (data : Slice) (atEOF : Bool)
    (r : SplitResult) (h : NoSplitFunc maxLogSize data atEOF = some r) :
    r.err = none ∧ (0 < maxLogSize → r.advance = 0 → r.token = .nil) := by
  unfold NoSplitFunc at h
  split_ifs at h with h1 h2 h3
  · cases ht : data.slice 0 maxLogSize with
    | none => simp [ht] at h
    | some t =>
      simp only [ht, Option.some.injEq] at h
      subst h
      exact ⟨rfl, fun hpos h0 => by simp only at h0; omega⟩
  · simp only [Option.some.injEq] at h
    subst h
    exact ⟨rfl, fun _ _ => rfl⟩
  · simp only [Option.some.injEq] at h
    subst h
    exact ⟨rfl, fun _ _ => rfl⟩
  · simp only [Option.some.injEq] at h
    subst h
    exact ⟨rfl, fun _ h0 => absurd h0 h3⟩

theorem newlineSplit_zero_advance (nl cr : List Byte) (flushAtEOF : Bool) (data : Slice)
    (atEOF : Bool) (r : SplitResult) (h : newlineSplit nl cr flushAtEOF data atEOF = some r) :
    r.err = none ∧ (nl ≠ [] → r.advance = 0 → r.token = .nil) := by
  unfold newlineSplit at h
  simp only at h
  split_ifs at h with h1 h2 h3 h4
  · simp only [Option.some.injEq] at h
    subst h
    exact ⟨rfl, fun _ _ => rfl⟩
  · simp only [Option.some.injEq] at h
    subst h
    refine ⟨rfl, fun hnl h0 => ?_⟩
    have hpos : 0 < nl.length := List.length_pos.mpr hnl
    simp only at h0
    omega
  · cases ht : data.slice 0 (bytesIndex data.bytes nl) with
    | none => simp [ht] at h
    | some line =>
      simp only [ht, Option.some.injEq] at h
      subst h
      refine ⟨rfl, fun _ h0 => ?_⟩
      simp only at h0
      omega
  · simp only [Option.some.injEq] at h
    subst h
    refine ⟨rfl, fun _ h0 => ?_⟩
    simp only at h0
    exact absurd ⟨h4.1, h0⟩ h1
  · simp only [Option.some.injEq] at h
    subst h
    exact ⟨rfl, fun _ _ => rfl⟩

theorem lineStartFromFirstMatch_zero_advance (re : Regexp) (hre : ValidMatcher re)
    (flushAtEOF : Bool) (data : Slice) (atEOF : Bool) (e : Int) (he0 : 0 ≤ e)
    (he : e ≤ data.len) (r : SplitResult)
    (h : lineStartFromFirstMatch re flushAtEOF data atEOF 0 e = some r) :
    r.err = none ∧ (r.advance = 0 → r.token = .nil) := by
  unfold lineStartFromFirstMatch at h
  simp only at h
  split_ifs at h with h1 h2
  · simp only [Option.some.injEq] at h
    subst h
    exact ⟨rfl, fun _ => rfl⟩
  · simp only [Option.some.injEq] at h
    subst h
    refine ⟨rfl, fun h0 => ?_⟩
    simp only at h0
    omega
  · cases hrest : data.slice (e + 1) data.len with
    | none => simp [hrest] at h
    | some rest =>
      simp only [hrest] at h
      cases hm : re rest.bytes with
      | none =>
        simp only [hm, Option.some.injEq] at h
        subst h
        exact ⟨rfl, fun _ => rfl⟩
      | some loc =>
        obtain ⟨s2, e2⟩ := loc
        obtain ⟨k0, _, _⟩ := hre _ _ _ hm
        simp only [hm] at h
        cases ht : data.slice 0 (s2 + (e + 1)) with
        | none => simp [ht] at h
        | some t =>
          simp only [ht, Option.some.injEq] at h
          subst h
          refine ⟨rfl, fun h0 => ?_⟩
          simp only at h0
          omega

theorem LineStartSplitFunc_zero_advance (re : Regexp) (hre : ValidMatcher re)
    (flushAtEOF : Bool) (data : Slice) (atEOF : Bool) (r : SplitResult)
    (h : LineStartSplitFunc re flushAtEOF data atEOF = some r) :
    r.err = none ∧ (r.advance = 0 → r.token = .nil) := by
  unfold LineStartSplitFunc at h
  cases hm : re data.bytes with
  | none =>
    simp only [hm] at h
    split_ifs at h with h1
    · simp only [Option.some.injEq] at h
      subst h
      exact ⟨rfl, fun h0 => absurd h0 h1.1⟩
    · simp only [Option.some.injEq] at h
      subst h
      exact ⟨rfl, fun _ => rfl⟩
  | some loc =>
    obtain ⟨s, e⟩ := loc
    obtain ⟨k0, k1, k2⟩ := hre _ _ _ hm
    simp only [hm] at h
    split_ifs at h with h1
    · cases ht : data.slice 0 s with
      | none => simp [ht] at h
      | some t =>
        simp only [ht] at h
        rw [if_pos (leading_token_ne_nil h1 ht)] at h
        simp only [Option.some.injEq] at h
        subst h
        exact ⟨rfl, fun h0 => absurd h0 h1⟩
    · have h0 : s = 0 := not_not.mp h1
      subst h0
      exact lineStartFromFirstMatch_zero_advance re hre flushAtEOF data atEOF e k1 k2 r h

theorem LineEndSplitFunc_zero_advance (re : Regexp) (flushAtEOF : Bool) (data : Slice)
    (atEOF : Bool) (r : SplitResult) (h : LineEndSplitFunc re flushAtEOF data atEOF = some r) :
    r.err = none ∧
      ((∀ s e, re data.bytes = some (s, e) → 0 < e) → r.advance = 0 → r.token = .nil) := by
  unfold LineEndSplitFunc at h
  cases hm : re data.bytes with
  | none =>
    simp only [hm] at h
    split_ifs at h with h1
    · simp only [Option.some.injEq] at h
      subst h
      exact ⟨rfl, fun _ h0 => absurd h0 h1.1⟩
    · simp only [Option.some.injEq] at h
      subst h
      exact ⟨rfl, fun _ _ => rfl⟩
  | some loc =>
    obtain ⟨s, e⟩ := loc
    simp only [hm] at h
    split_ifs at h with h1
    · simp only [Option.some.injEq] at h
      subst h
      exact ⟨rfl, fun _ _ => rfl⟩
    · cases ht : data.slice 0 e with
      | none => simp [ht] at h
      | some t =>
        simp only [ht, Option.some.injEq] at h
        subst h
        refine ⟨rfl, fun hpos h0 => ?_⟩
        have := hpos s e rfl
        simp only at h0
        omega

/-- The matcher for the empty match reports spans of the searched bytes. -/
theorem emptyMatchRegexp_valid : ValidMatcher emptyMatchRegexp := by
  intro d s e h
  simp only [emptyMatchRegexp, Option.some.injEq, Prod.mk.injEq] at h
  obtain ⟨rfl, rfl⟩ := h
  simp

/-- C18 (as stated, refuted). `NoSplitFunc(0)` on the buffer `"a"` and `LineEndSplitFunc`
with a matcher for the empty match on the buffer `"ab"` return `advance = 0` together with
the empty, non-nil token `buffer[0:0]`. -/
theorem zero_advance_with_token :
    NoSplitFunc 0 (.of [97]) false = some ⟨0, .of [], none⟩ ∧
    LineEndSplitFunc emptyMatchRegexp false (.of [97, 98]) false = some ⟨0, .of [], none⟩ ∧
    (SplitResult.mk 0 (.of []) none).advance = 0 ∧
    (SplitResult.mk 0 (.of []) none).token ≠ .nil := by
  decide

/-- C18 (amended). Every call of the four strategies returns with a nil error
(`NoSplitFunc` for `maxLogSize >= 0`, `LineStartSplitFunc` and `LineEndSplitFunc` for a
matcher reporting spans of the searched bytes). A zero advance comes with a nil token for
`LineStartSplitFunc` (every such matcher, the empty match included), for
`NewlineSplitFunc` with a non-empty encoded newline, for `NoSplitFunc` with
`maxLogSize > 0`, and for `LineEndSplitFunc` when the first match does not end at
offset 0. -/
theorem zero_advance_is_need_more_data (newline carriageReturn : List Byte) (re : Regexp)
    (hre : ValidMatcher re) (maxLogSize : Int) (hmax : 0 ≤ maxLogSize) (flushAtEOF : Bool)
    (data : Slice) (atEOF : Bool) :
    (∃ r, NoSplitFunc maxLogSize data atEOF = some r ∧ r.err = none ∧
      (0 < maxLogSize → r.advance = 0 → r.token = .nil)) ∧
    (∃ r, newlineSplit newline carriageReturn flushAtEOF data atEOF = some r ∧ r.err = none ∧
      (newline ≠ [] → r.advance = 0 → r.token = .nil)) ∧
    (∃ r, LineStartSplitFunc re flushAtEOF data atEOF = some r ∧ r.err = none ∧
      (r.advance = 0 → r.token = .nil)) ∧
    (∃ r, LineEndSplitFunc re flushAtEOF data atEOF = some r ∧ r.err = none ∧
      ((∀ s e, re data.bytes = some (s, e) → 0 < e) → r.advance = 0 → r.token = .nil)) := by
  obtain ⟨r1, h1, _⟩ := NoSplitFunc_advance maxLogSize hmax data atEOF
  obtain ⟨r2, h2, _⟩ := newlineSplit_advance newline carriageReturn flushAtEOF data atEOF
  obtain ⟨r3, h3, _⟩ := LineStartSplitFunc_advance re hre flushAtEOF data atEOF
  obtain ⟨r4, h4, _⟩ := LineEndSplitFunc_advance re hre flushAtEOF data atEOF
  exact ⟨⟨r1, h1, NoSplitFunc_zero_advance _ _ _ r1 h1⟩,
    ⟨r2, h2, newlineSplit_zero_advance _ _ _ _ _ r2 h2⟩,
    ⟨r3, h3, LineStartSplitFunc_zero_advance re hre _ _ _ r3 h3⟩,
    ⟨r4, h4, LineEndSplitFunc_zero_advance re _ _ _ r4 h4⟩⟩

/-- C18 (amended) on the buffer `"ab"` with the matcher for the empty match and
`maxLogSize = 4`. -/
theorem zero_advance_is_need_more_data_witness :
    ValidMatcher emptyMatchRegexp ∧ (0 : Int) ≤ 4 ∧
    ((∃ r, NoSplitFunc 4 (.of [97, 98]) false = some r ∧ r.err = none ∧
      ((0 : Int) < 4 → r.advance = 0 → r.token = .nil)) ∧
    (∃ r, newlineSplit [10] [13] true (.of [97, 98]) false = some r ∧ r.err = none ∧
      (([10] : List Byte) ≠ [] → r.advance = 0 → r.token = .nil)) ∧
    (∃ r, LineStartSplitFunc emptyMatchRegexp true (.of [97, 98]) false = some r ∧
      r.err = none ∧ (r.advance = 0 → r.token = .nil)) ∧
    (∃ r, LineEndSplitFunc emptyMatchRegexp true (.of [97, 98]) false = some r ∧
      r.err = none ∧
      ((∀ s e, emptyMatchRegexp (Slice.of [97, 98]).bytes = some (s, e) → 0 < e) →
        r.advance = 0 → r.token = .nil))) :=
  ⟨emptyMatchRegexp_valid, by decide,
    zero_advance_is_need_more_data [10] [13] emptyMatchRegexp emptyMatchRegexp_valid 4
      (by decide) true (.of [97, 98]) false⟩

/-! ## `NewlineSplitFunc` without flushing and `bufio.ScanLines` -/

/-- `bytes.IndexByte(s, c)` is `bytes.Index(s, [c])`. -/
theorem bytesIndexByte_eq : ∀ (s : List Byte) (c : Byte),
    bytesIndexByte s c = bytesIndex s [c]
  | [], c => by simp [bytesIndexByte, bytesIndex, firstIndex]
  | b :: t, c => by
    have ih := bytesIndexByte_eq t c
    unfold bytesIndex at ih ⊢
    unfold bytesIndexByte firstIndex
    by_cases hb : b = c
    · subst hb
      simp
    · have hp : ¬ ([c].isPrefixOf (b :: t) = true) := by
        intro hc
        have := List.isPrefixOf_iff_prefix.mp hc
        obtain ⟨u, hu⟩ := this
        simp only [List.singleton_append, List.cons.injEq] at hu
        exact hb hu.1.symm
      rw [if_neg hb, if_neg hp, ih]
      cases firstIndex [c] t with
      | none => simp
      | some i =>
        simp only [Option.map_some']
        rw [if_neg (by omega)]
        push_cast
        rfl

/-- A list ends with the byte `c` exactly when `[c]` is a suffix of it. -/
theorem singleton_suffix_iff (c : Byte) (l : List Byte) :
    [c] <:+ l ↔ l.getLast? = some c := by
  constructor
  · rintro ⟨t, rfl⟩
    simp
  · intro h
    exact ⟨l.dropLast, List.dropLast_append_getLast? c h⟩

/-- The helper `dropCR` is `bytes.TrimSuffix` with the suffix `"\r"`. -/
theorem dropCR_eq (line : Slice) : dropCR line = some (bytesTrimSuffix line [13]) := by
  unfold dropCR bytesTrimSuffix
  cases line with
  | nil => simp [Slice.len_nil, Slice.bytes]
  | of l =>
    simp only [Slice.bytes_of, Slice.len_of]
    by_cases hs : l.getLast? = some 13
    · have hsuf : [13] <:+ l := (singleton_suffix_iff 13 l).mpr hs
      have hpos : 0 < l.length := by
        have := hsuf.length_le
        simpa using this
      rw [if_pos ⟨by omega, hs⟩, if_pos (List.isSuffixOf_iff_suffix.mpr hsuf)]
      simp only [Slice.slice, Slice.len_of]
      rw [if_pos ⟨le_refl 0, by omega, by omega⟩]
      have h1 : ((l.length : Int) - 1).toNat = l.length - 1 := by omega
      simp [h1]
    · rw [if_neg (fun hc => hs hc.2),
        if_neg (fun hc => hs ((singleton_suffix_iff 13 l).mp (List.isSuffixOf_iff_suffix.mp hc)))]

/-- C19. With newline `[0x0A]`, carriage return `[0x0D]` and `flushAtEOF = false`, for
every buffer and every end-of-stream flag the result of `NewlineSplitFunc` is the result
of `bufio.ScanLines` on the same buffer with `atEOF = false`. Every token it returns is
ended by a newline of the buffer: the newline byte first occurs at some offset `i` and
`advance = i + 1`; no token is ended by the end of the stream. -/
theorem newlineSplit_refines_ScanLines (data : Slice) (atEOF : Bool) :
    newlineSplit [10] [13] false data atEOF = ScanLines data false ∧
    (∀ r, newlineSplit [10] [13] false data atEOF = some r → r.token ≠ .nil →
      ∃ i : Nat, [10] <+: data.bytes.drop i ∧ (∀ j, j < i → ¬ [10] <+: data.bytes.drop j) ∧
        r.advance = (i : Int) + 1) := by
  have hlen := data.len_nonneg
  have hdl : data.len = (data.bytes.length : Int) := rfl
  constructor
  · have hR : ScanLines data false =
        if bytesIndex data.bytes [10] ≥ 0 then
          match data.slice 0 (bytesIndex data.bytes [10]) with
          | none => none
          | some line => some ⟨bytesIndex data.bytes [10] + 1, bytesTrimSuffix line [13], none⟩
        else some needMoreData := by
      unfold ScanLines
      simp only [bytesIndexByte_eq, dropCR_eq]
      rw [if_neg (show ¬ ((false : Bool) = true ∧ data.len = 0) by simp),
        if_neg (show ¬ ((false : Bool) = true) by simp)]
    rw [hR]
    unfold newlineSplit
    simp only
    rcases bytesIndex_range data.bytes [10] with hidx | ⟨h0, hfit⟩
    · rw [hidx]
      simp [needMoreData]
    · simp only [List.length_singleton, Nat.cast_one] at hfit ⊢
      have hne : ¬ (atEOF = true ∧ data.len = 0) := fun hc => by omega
      have hd := data.eq_of_of_len_pos (by omega)
      rw [if_neg hne, if_pos h0]
      by_cases hi : bytesIndex data.bytes [10] = 0
      · rw [if_pos hi, hi]
        have hslice : data.slice 0 0 = some (.of []) := by
          rw [hd]
          simp [Slice.slice, Slice.len_of]
        rw [hslice]
        simp [bytesTrimSuffix, Slice.bytes]
      · rw [if_neg hi, if_pos h0]
  · intro r hr htok
    unfold newlineSplit at hr
    simp only at hr
    split_ifs at hr with h1 h2 h3 h4
    · simp only [Option.some.injEq] at hr
      subst hr
      exact absurd rfl htok
    · obtain ⟨i, hi, hidx⟩ := bytesIndex_nonneg (le_of_eq h2.symm)
      obtain ⟨_, hp, hfirst⟩ := firstIndex_some hi
      simp only [Option.some.injEq] at hr
      subst hr
      exact ⟨i, hp, hfirst, by simp only [List.length_singleton, Nat.cast_one]; omega⟩
    · obtain ⟨i, hi, hidx⟩ := bytesIndex_nonneg h3
      obtain ⟨_, hp, hfirst⟩ := firstIndex_some hi
      cases ht : data.slice 0 (bytesIndex data.bytes [10]) with
      | none => simp [ht] at hr
      | some line =>
        simp only [ht, Option.some.injEq] at hr
        subst hr
        exact ⟨i, hp, hfirst, by simp only [List.length_singleton, Nat.cast_one]; omega⟩
    · exact absurd h4.2 (by simp)
    · simp only [Option.some.injEq] at hr
      subst hr
      exact absurd rfl htok

/-- C19 on the buffer `"a\r\nb"` at end-of-stream: the same result as `bufio.ScanLines`
with `atEOF = false`, the token `"a"` with `advance = 3`, ended by the newline at offset 2. -/
theorem newlineSplit_refines_ScanLines_witness :
    newlineSplit [10] [13] false (.of [97, 13, 10, 98]) true =
      ScanLines (.of [97, 13, 10, 98]) false ∧
    (∃ i : Nat, [10] <+: (Slice.of [97, 13, 10, 98]).bytes.drop i ∧
      (∀ j, j < i → ¬ [10] <+: (Slice.of [97, 13, 10, 98]).bytes.drop j) ∧
      (SplitResult.mk 3 (.of [97]) none).advance = (i : Int) + 1) ∧
    ScanLines (.of [97, 13, 10, 98]) false = some ⟨3, .of [97], none⟩ :=
  ⟨(newlineSplit_refines_ScanLines (.of [97, 13, 10, 98]) true).1,
   (newlineSplit_refines_ScanLines (.of [97, 13, 10, 98]) true).2 ⟨3, .of [97], none⟩
      (by decide) (by decide),
   by decide⟩

/-! ## `LineStartSplitFunc` makes progress -/

/-- A strategy whose calls return, stay inside the buffer and emit nothing on a zero
advance ends every run within `len(buffer) + 1` calls; every step of the run advances by
at least one byte and satisfies whatever `Q` holds of the advancing results. -/
theorem scanLoop_terminates (f : SplitFunc) (atEOF : Bool) (Q : SplitResult → Prop)
    (hf : ∀ data, ∃ r, f data atEOF = some r ∧ 0 ≤ r.advance ∧ r.advance ≤ data.len ∧
      (r.advance = 0 → r.token = .nil) ∧ (r.advance ≠ 0 → Q r)) :
    ∀ (fuel : Nat) (data : Slice), data.bytes.length < fuel →
      ∃ steps rest, scanLoop f atEOF fuel data = some (steps, rest) ∧
        steps.length ≤ data.bytes.length ∧ ∀ r ∈ steps, 1 ≤ r.advance ∧ Q r
  | 0, _, h => absurd h (Nat.not_lt_zero _)
  | fuel + 1, data, h => by
    obtain ⟨r, hr, h0, hle, hnil, hQ⟩ := hf data
    rw [scanLoop_succ f atEOF fuel data r hr]
    by_cases hz : r.advance = 0
    · rw [if_pos ⟨hz, hnil hz⟩]
      exact ⟨[], data, rfl, Nat.zero_le _, by simp⟩
    · have hdl : data.len = (data.bytes.length : Int) := rfl
      rw [if_neg (fun hc => hz hc.1), if_neg (by omega)]
      obtain ⟨steps, rest, hrec, hlen, hall⟩ := scanLoop_terminates f atEOF Q hf fuel
        (data.dropFront r.advance.toNat)
        (by rw [Slice.dropFront_bytes, List.length_drop]; omega)
      rw [hrec]
      refine ⟨r :: steps, rest, rfl, ?_, ?_⟩
      · rw [Slice.dropFront_bytes, List.length_drop] at hlen
        simp only [List.length_cons]
        omega
      · intro x hx
        rcases List.mem_cons.mp hx with rfl | hx
        · exact ⟨by omega, hQ hz⟩
        · exact hall x hx

/-- C20. For `LineStartSplitFunc` with any matcher reporting spans of the searched bytes
(the empty match included), every buffer, end-of-stream flag and flush policy: a returned
non-nil token is non-empty and comes with `advance >= 1`. Hence a caller that drops the
advance after each token strictly shrinks its buffer: with `len(buffer) + 1` calls allowed
every run of the read loop ends, after at most `len(buffer)` tokens, each of them
non-empty with `advance >= 1`. -/
theorem LineStartSplitFunc_makes_progress (re : Regexp) (hre : ValidMatcher re)
    (flushAtEOF : Bool) (data : Slice) (atEOF : Bool) :
    (∀ r, LineStartSplitFunc re flushAtEOF data atEOF = some r → r.token ≠ .nil →
      r.token.bytes ≠ [] ∧ 1 ≤ r.advance) ∧
    (∀ fuel, data.bytes.length < fuel →
      ∃ steps rest, scanLoop (LineStartSplitFunc re flushAtEOF) atEOF fuel data =
          some (steps, rest) ∧
        steps.length ≤ data.bytes.length ∧
        ∀ r ∈ steps, 1 ≤ r.advance ∧ r.token.bytes ≠ []) := by
  have hcall : ∀ (d : Slice) (r : SplitResult),
      LineStartSplitFunc re flushAtEOF d atEOF = some r → r.advance ≠ 0 →
        r.token.bytes ≠ [] ∧ 1 ≤ r.advance := by
    intro d r hr hz
    obtain ⟨_, hlen⟩ := LineStartSplitFunc_token_consumed re flushAtEOF d atEOF r hr
    have hnn := r.token.len_nonneg
    refine ⟨fun hb => ?_, by omega⟩
    unfold Slice.len at hlen
    rw [hb] at hlen
    exact hz hlen.symm
  constructor
  · intro r hr htok
    have hz : r.advance ≠ 0 := fun h0 =>
      htok ((LineStartSplitFunc_zero_advance re hre flushAtEOF data atEOF r hr).2 h0)
    exact hcall data r hr hz
  · intro fuel hfuel
    exact scanLoop_terminates (LineStartSplitFunc re flushAtEOF) atEOF
      (fun r => r.token.bytes ≠ [])
      (fun d => by
        obtain ⟨r, hr, h0, hle⟩ := LineStartSplitFunc_advance re hre flushAtEOF d atEOF
        exact ⟨r, hr, h0, hle,
          (LineStartSplitFunc_zero_advance re hre flushAtEOF d atEOF r hr).2,
          fun hz => (hcall d r hr hz).1⟩)
      fuel data hfuel

/-- C20 with the matcher for the empty match on the buffer `"ab"`: the call emits `"a"`
with `advance = 1`, and the run ends after two one-byte tokens. -/
theorem LineStartSplitFunc_makes_progress_witness :
    ValidMatcher emptyMatchRegexp ∧
    ((SplitResult.mk 1 (.of [97]) none).token.bytes ≠ [] ∧
      1 ≤ (SplitResult.mk 1 (.of [97]) none).advance) ∧
    (∃ steps rest, scanLoop (LineStartSplitFunc emptyMatchRegexp false) false 3
          (.of [97, 98]) = some (steps, rest) ∧
        steps.length ≤ (Slice.of [97, 98]).bytes.length ∧
        ∀ r ∈ steps, 1 ≤ r.advance ∧ r.token.bytes ≠ []) ∧
    LineStartSplitFunc emptyMatchRegexp false (.of [97, 98]) false =
      some ⟨1, .of [97], none⟩ :=
  ⟨emptyMatchRegexp_valid,
   (LineStartSplitFunc_makes_progress emptyMatchRegexp emptyMatchRegexp_valid false
      (.of [97, 98]) false).1 ⟨1, .of [97], none⟩ (by decide) (by decide),
   (LineStartSplitFunc_makes_progress emptyMatchRegexp emptyMatchRegexp_valid false
      (.of [97, 98]) false).2 3 (by decide),
   by decide⟩

end Split
